import Mathlib

/-!
Verification of the CARGO graph-partitioning core (`src/cargo/cargo.py`)
against its natural-language specification.

The Python program is shallowly embedded: the `networkx.MultiDiGraph` is an
explicit structure of ordered association lists, Python attribute
dictionaries are ordered association lists of `String × PyVal`, the global
`random` module is an explicit state (`Rng`) threaded through every
operation, and fallible Python code (TypeError on a duplicate keyword
argument, TypeError on comparing `None` with an integer, ZeroDivisionError
on `% 0`) is modelled with `Except String`.
-/

namespace CargoModel

/-- A Python value as it occurs in the SDG JSON and in node attribute
dictionaries: `None`, an integer, or a string. Edge weights are kept apart
as rationals. -/
inductive PyVal where
  | none : PyVal
  | int : Int → PyVal
  | str : String → PyVal
deriving DecidableEq, Repr

/-- Python `d[k] = v` on an insertion-ordered dictionary: replace in place
if the key exists (keeping its position), otherwise append. -/
def dictSet (d : List (String × PyVal)) (k : String) (v : PyVal) :
    List (String × PyVal) :=
  if d.any (fun kv => kv.1 == k) then
    d.map (fun kv => if kv.1 == k then (k, v) else kv)
  else d ++ [(k, v)]

/-- Python `d.update(kvs)`: fold `dictSet` over the new bindings. -/
def dictUpdate (d : List (String × PyVal)) (kvs : List (String × PyVal)) :
    List (String × PyVal) :=
  kvs.foldl (fun acc kv => dictSet acc kv.1 kv.2) d

/-- Python `d.get(k)`: the stored value, or `None` when the key is absent. -/
def pyGet (d : List (String × PyVal)) (k : String) : PyVal :=
  ((d.find? (fun kv => kv.1 == k)).map (fun kv => kv.2)).getD PyVal.none

/-- Python `a < b` where `a` is an `int` or `None` and `b` an `int`:
comparing `None` with an integer raises `TypeError`. -/
def pyLt (a : Option Int) (b : Int) : Except String Bool :=
  match a with
  | Option.none => Except.error "TypeError"
  | Option.some x => Except.ok (decide (x < b))

/-- Python `a < b` where `a` is an `int` and `b` is an `int` or `None`. -/
def pyLtI (a : Int) (b : Option Int) : Except String Bool :=
  match b with
  | Option.none => Except.error "TypeError"
  | Option.some y => Except.ok (decide (a < y))

/-- Python `a % b` on integers: `ZeroDivisionError` on `b = 0`, otherwise
floored modulus (the result carries the sign of the divisor), which is
`Int.fmod`. -/
def pyMod (a b : Int) : Except String Int :=
  if b == 0 then Except.error "ZeroDivisionError" else Except.ok (Int.fmod a b)

/-- Python `int(q)` on a (non-complex) number: truncation toward zero. -/
def pyTrunc (q : ℚ) : Int :=
  Int.tdiv q.num (q.den : Int)

/-- Equality on `Except` results is decidable, so that concrete runs can be
checked by evaluation. -/
instance instDecEqExcept {ε α : Type} [DecidableEq ε] [DecidableEq α] :
    DecidableEq (Except ε α) := fun x y =>
  match x, y with
  | Except.ok a, Except.ok b =>
    if h : a = b then Decidable.isTrue (by rw [h])
    else Decidable.isFalse (by intro e; cases e; exact h rfl)
  | Except.error a, Except.error b =>
    if h : a = b then Decidable.isTrue (by rw [h])
    else Decidable.isFalse (by intro e; cases e; exact h rfl)
  | Except.ok _, Except.error _ => Decidable.isFalse (by intro e; cases e)
  | Except.error _, Except.ok _ => Decidable.isFalse (by intro e; cases e)

/-- State of the global `random` module. Python uses a Mersenne Twister; the
exact stream is irrelevant to every claim, so the generator is modelled by a
concrete linear congruential state. What matters is that it is a single
deterministic state seeded once and threaded through all draws. -/
abbrev Rng := Nat

/-- One draw from the generator: a value in `[0, 32768)` and the new state. -/
def rngNext (r : Rng) : Nat × Rng :=
  let r' := (r * 1103515245 + 12345) % 2147483648
  ((r' / 65536) % 32768, r')

/-- Python `random.seed(c)`: replace whatever generator state existed with
the state determined by the constant alone. -/
def seedRng (_old : Rng) (c : Nat) : Rng := c

/-- Python `random.randint(a, b)`: a draw in `[a, b]` (inclusive) for
`a ≤ b`, consuming one generator step. -/
def randint (a b : Int) (r : Rng) : Int × Rng :=
  let p := rngNext r
  (a + (p.1 : Int) % (b - a + 1), p.2)

/-- An input node record: its `id` plus the rest of its JSON mapping. -/
structure NodeRec where
  id : String
  fields : List (String × PyVal)
deriving DecidableEq, Repr

/-- An input edge record (`source`, `target`, `weight`, `type`). -/
structure EdgeRec where
  source : String
  target : String
  weight : ℚ
  etype : String
deriving DecidableEq, Repr

/-- The parsed SDG JSON document: a node list and an edge list. -/
structure SDGDoc where
  nodes : List NodeRec
  edges : List EdgeRec
deriving DecidableEq, Repr

/-- The `networkx.MultiDiGraph`: insertion-ordered nodes with attribute
dictionaries, and the multi-edge list in insertion order (parallel edges
between the same pair keep their insertion order; the edge keyed `0` in
networkx is the first inserted one). -/
structure Graph where
  nodes : List (String × List (String × PyVal))
  edges : List EdgeRec
deriving DecidableEq, Repr

/-- Node identifiers in insertion (iteration) order, as `list(G.nodes())`. -/
def nodeIds (g : Graph) : List String :=
  g.nodes.map Prod.fst

/-- The attribute dictionary of a node (`G.nodes[n]`); empty for an absent
node (absent nodes are never dereferenced on the claims' paths). -/
def attrsOf (g : Graph) (n : String) : List (String × PyVal) :=
  ((g.nodes.find? (fun kv => kv.1 == n)).map (fun kv => kv.2)).getD []

/-- Read `G.nodes[n]["partition"]` (with `.get` semantics at the key:
the key is present on every path the claims exercise). -/
def getPartition (g : Graph) (n : String) : PyVal :=
  pyGet (attrsOf g n) "partition"

/-- Write `G.nodes[n][k] = v`. A write to an absent node is a no-op here
(Python would raise; no claim path writes to an absent node). -/
def setNodeAttr (g : Graph) (n : String) (k : String) (v : PyVal) : Graph :=
  { g with nodes := g.nodes.map (fun kv =>
      if kv.1 == n then (kv.1, dictSet kv.2 k v) else kv) }

/-- Write `G.nodes[n]["partition"] = v`. -/
def setPartition (g : Graph) (n : String) (v : PyVal) : Graph :=
  setNodeAttr g n "partition" v

/-- Heads of `itertools.groupby(recs, key=lambda x: x["id"])`, computed by
tracking the previous record's id: a record starts a new group exactly when
its id differs from the id of the record immediately before it
(`group.__next__()` in the source takes exactly these group leaders). -/
def groupbyHeadsGo (last : Option String) : List NodeRec → List NodeRec
  | [] => []
  | r :: rs =>
    if last == Option.some r.id then groupbyHeadsGo last rs
    else r :: groupbyHeadsGo (Option.some r.id) rs

/-- Heads of `itertools.groupby` over the whole record list. -/
def groupbyHeads (recs : List NodeRec) : List NodeRec :=
  groupbyHeadsGo Option.none recs

/-- One `self.SDG.add_node(node_id, partition=None, **node_attr)` call.
If the record's mapping itself carries a `partition` key the Python call
raises `TypeError` (duplicate keyword argument). Otherwise the keyword
dictionary is `partition=None`, `id`, then the record's remaining fields;
networkx inserts a fresh node or updates the existing node's attributes. -/
def addNode (g : Graph) (r : NodeRec) : Except String Graph :=
  if r.fields.any (fun kv => kv.1 == "partition") then
    Except.error "TypeError"
  else
    let kwargs := ("partition", PyVal.none) :: ("id", PyVal.str r.id) :: r.fields
    if g.nodes.any (fun kv => kv.1 == r.id) then
      Except.ok { g with nodes := g.nodes.map (fun kv =>
        if kv.1 == r.id then (kv.1, dictUpdate kv.2 kwargs) else kv) }
    else
      Except.ok { g with nodes := g.nodes ++ [(r.id, dictUpdate [] kwargs)] }

/-- The node-population phase of `json2nx` (lines 53-58): add one node per
`groupby` head. -/
def populateNodes (recs : List NodeRec) (g : Graph) : Except String Graph :=
  (groupbyHeads recs).foldlM addNode g

/-- One iteration of the edge-population loop (lines 61-68): self-loops are
skipped; otherwise `add_edge` inserts absent endpoints with empty attribute
dictionaries and appends a new parallel edge. -/
def addEdgeStep (g : Graph) (e : EdgeRec) : Graph :=
  if e.source == e.target then g
  else
    let g1 :=
      if g.nodes.any (fun kv => kv.1 == e.source) then g
      else { g with nodes := g.nodes ++ [(e.source, [])] }
    let g2 :=
      if g1.nodes.any (fun kv => kv.1 == e.target) then g1
      else { g1 with nodes := g1.nodes ++ [(e.target, [])] }
    { g2 with edges := g2.edges ++ [e] }

/-- `json2nx`: populate the nodes from the `groupby` heads, then the edges. -/
def json2nx (doc : SDGDoc) : Except String Graph := do
  let g ← populateNodes doc.nodes ⟨[], []⟩
  Except.ok (doc.edges.foldl addEdgeStep g)

/-- First-occurrence deduplication with an explicit seen accumulator. -/
def firstDedupGo {α : Type} [BEq α] (seen : List α) : List α → List α
  | [] => []
  | a :: l =>
    if seen.contains a then firstDedupGo seen l
    else a :: firstDedupGo (seen ++ [a]) l

/-- Keep the first occurrence of every element, preserving order. -/
def firstDedup {α : Type} [BEq α] (l : List α) : List α :=
  firstDedupGo [] l

/-- `G.neighbors(node)`: the distinct out-neighbors of a node. The networkx
adjacency lists each successor once, in order of the first edge inserted
toward it, so this is the first-occurrence deduplication of the targets of
the node's out-edges in insertion order. In-edges never appear. -/
def outNeighbors (g : Graph) (u : String) : List String :=
  firstDedup ((g.edges.filter (fun e => e.source == u)).map (fun e => e.target))

/-- `G[node][neighbor].get(0)["weight"]`: the weight of the parallel edge
keyed `0`, which is the first edge inserted from `u` to `v`. The default is
never used when `v` is an out-neighbor of `u`. -/
def repWeight (g : Graph) (u v : String) : ℚ :=
  ((g.edges.find? (fun e => e.source == u && e.target == v)).map
    (fun e => e.weight)).getD 0

/-- The `labels_list` built for a node in one propagation step: for each
out-neighbor, its current partition label repeated `int(weight)` times
(truncation toward zero; a negative replication count yields the empty
list, as `[x] * n` does in Python). -/
def votes (g : Graph) (n : String) : List PyVal :=
  (outNeighbors g n).flatMap (fun v =>
    List.replicate (pyTrunc (repWeight g n v)).toNat (getPartition g v))

/-- The largest multiplicity occurring in the list. -/
def maxCount (l : List PyVal) : Nat :=
  ((firstDedup l).map (fun a => l.count a)).foldr Nat.max 0

/-- `statistics.mode`: the most frequent element; among equally frequent
elements the one first encountered in the data. `Option.none` exactly on
the empty list (where Python's `mode` would raise, but the engine guards
with `if labels_list:`). -/
def pymode (l : List PyVal) : Option PyVal :=
  (firstDedup l).find? (fun a => l.count a == maxCount l)

/-- The body of the propagation loop for one node: build the vote list; if
it is non-empty take its mode and, when it differs from the node's current
partition, write it and report a change. -/
def nodeStep (g : Graph) (n : String) : Graph × Bool :=
  match pymode (votes g n) with
  | Option.none => (g, false)
  | Option.some m =>
    if m == getPartition g n then (g, false)
    else (setPartition g n m, true)

/-- One full pass over `order`, threading the graph and the change count. -/
def passFrom (g : Graph) (c : Nat) : List String → Graph × Nat
  | [] => (g, c)
  | n :: rest =>
    let s := nodeStep g n
    passFrom s.1 (c + if s.2 then 1 else 0) rest

/-- One pass of `_propogate_labels` over a visitation order: visit each
node in turn, updating labels in place and counting changes. -/
def propagatePass (order : List String) (g : Graph) : Graph × Nat :=
  passFrom g 0 order

/-- `random.shuffle`, modelled as a generator-driven selection permutation
(pick a generator-chosen index, move that element to the front, recurse).
The structural fuel equals the list length, so it is never exhausted. -/
def shuffleGo : Nat → List String → Rng → List String × Rng
  | 0, l, r => (l, r)
  | fuel + 1, l, r =>
    match l with
    | [] => ([], r)
    | x :: xs =>
      let p := rngNext r
      let j := p.1 % (x :: xs).length
      let a := (x :: xs).getD j x
      let q := shuffleGo fuel ((x :: xs).eraseIdx j) p.2
      (a :: q.1, q.2)

/-- `random.shuffle(nodes)` as a pure function of the generator state. -/
def shuffle (l : List String) (r : Rng) : List String × Rng :=
  shuffleGo l.length l r

/-- `_propogate_labels`: repeat full passes over a freshly shuffled node
order until a pass makes zero changes; return the graph after that pass
(and the generator state). `Option.none` when `fuel` passes did not reach a
pass with zero changes (the Python loop is unbounded). -/
def propagateLoop : Nat → Graph → Rng → Option (Graph × Rng)
  | 0, _, _ => Option.none
  | fuel + 1, g, r =>
    let s := shuffle (nodeIds g) r
    let p := propagatePass s.1 g
    if p.2 == 0 then Option.some (p.1, s.2) else propagateLoop fuel p.1 s.2

/-- The loop of `_assign_init_labels_via_random_methods`, over the node ids
with their enumeration index. `max_part < 2` assigns the index itself;
otherwise `random.randint(1, max_part)`. Comparing a `None` `max_part` with
`2` raises `TypeError` at the first node. The final `match` arm is
unreachable because `pyLt` has already raised on `None`. -/
def rmGo (mp : Option Int) : Nat → List String → Graph → Rng →
    Except String (Graph × Rng)
  | _, [], g, r => Except.ok (g, r)
  | i, n :: rest, g, r => do
    let lt ← pyLt mp 2
    if lt then rmGo mp (i + 1) rest (setPartition g n (PyVal.int i)) r
    else
      match mp with
      | Option.some m =>
        let p := randint 1 m r
        rmGo mp (i + 1) rest (setPartition g n (PyVal.int p.1)) p.2
      | Option.none => Except.error "TypeError"

/-- `_assign_init_labels_via_random_methods`. -/
def assignRandomMethods (g : Graph) (mp : Option Int) (r : Rng) :
    Except String (Graph × Rng) :=
  rmGo mp 0 (nodeIds g) g r

/-- Step 1 of `_assign_init_labels_via_random_classes`: build the
class-to-partition map. A partition value is computed (consuming a
generator draw when `max_part ≥ 2`) for every node, but only recorded for a
class not yet in the map. -/
def rcBuild (mp : Option Int) :
    Nat → List (String × List (String × PyVal)) → List (PyVal × Int) → Rng →
    Except String (List (PyVal × Int) × Rng)
  | _, [], m, r => Except.ok (m, r)
  | i, nd :: rest, m, r => do
    let classAttr := pyGet nd.2 "class"
    let lt ← pyLt mp 2
    let p : Int × Rng ←
      if lt then Except.ok ((i : Int), r)
      else
        match mp with
        | Option.some mv => Except.ok (randint 1 mv r)
        | Option.none => Except.error "TypeError"
    let m' := if m.any (fun kv => kv.1 == classAttr) then m
              else m ++ [(classAttr, p.1)]
    rcBuild mp (i + 1) rest m' p.2

/-- Step 2 of `_assign_init_labels_via_random_classes`: give every node the
partition id recorded for its class. Step 1 recorded every class that
occurs, so the lookup default is never used. -/
def rcApply (cmap : List (PyVal × Int)) : List String → Graph → Graph
  | [], g => g
  | n :: rest, g =>
    let ca := pyGet (attrsOf g n) "class"
    let v := ((cmap.find? (fun kv => kv.1 == ca)).map (fun kv => kv.2)).getD 0
    rcApply cmap rest (setPartition g n (PyVal.int v))

/-- `_assign_init_labels_via_random_classes`. -/
def assignRandomClasses (g : Graph) (mp : Option Int) (r : Rng) :
    Except String (Graph × Rng) := do
  let p ← rcBuild mp 0 g.nodes [] r
  Except.ok (rcApply p.1 (nodeIds g) g, p.2)

/-- The loop of `_assign_init_labels_via_file`: a node whose class is a key
of the mapping takes the mapped value; otherwise the same `max_part`-gated
policy as `random_methods` applies per node. -/
def afGo (mp : Option Int) (cpm : List (PyVal × PyVal)) :
    Nat → List String → Graph → Rng → Except String (Graph × Rng)
  | _, [], g, r => Except.ok (g, r)
  | i, n :: rest, g, r =>
    let ca := pyGet (attrsOf g n) "class"
    match cpm.find? (fun kv => kv.1 == ca) with
    | Option.some kv => afGo mp cpm (i + 1) rest (setPartition g n kv.2) r
    | Option.none => do
      let lt ← pyLt mp 2
      if lt then afGo mp cpm (i + 1) rest (setPartition g n (PyVal.int i)) r
      else
        match mp with
        | Option.some m =>
          let p := randint 1 m r
          afGo mp cpm (i + 1) rest (setPartition g n (PyVal.int p.1)) p.2
        | Option.none => Except.error "TypeError"

/-- `_assign_init_labels_via_file`: raises when no labels file is given
(the file itself is consumed as the already-loaded class-to-partition
mapping; file I/O is outside the core). -/
def assignViaFile (g : Graph) (mp : Option Int)
    (lf : Option (List (PyVal × PyVal))) (r : Rng) :
    Except String (Graph × Rng) :=
  match lf with
  | Option.none => Except.error "Exception"
  | Option.some cpm => afGo mp cpm 0 (nodeIds g) g r

/-- Python `s.split(".")` at the character level (structural, so that the
kernel can evaluate it): maximal dot-free chunks, with empty chunks kept,
and `[""]` on the empty string. -/
def splitDotsGo (acc : List Char) : List Char → List String
  | [] => [String.mk acc.reverse]
  | c :: cs =>
    if c == '.' then String.mk acc.reverse :: splitDotsGo [] cs
    else splitDotsGo (c :: acc) cs

/-- Python `s.split(".")`. -/
def pySplitDot (s : String) : List String :=
  splitDotsGo [] s.data

/-- `".".join(node.split(".")[:-2])`: the package of a node identifier. -/
def pkgOf (n : String) : String :=
  let segs := pySplitDot n
  String.intercalate "." (segs.take (segs.length - 2))

/-- `len(package_name.split("."))`: the depth of a package. -/
def pkgDepth (p : String) : Nat :=
  (pySplitDot p).length

/-- `".".join(pack.split(".")[:-1])`: the immediate parent package. -/
def parentPkg (p : String) : String :=
  let segs := pySplitDot p
  String.intercalate "." (segs.take (segs.length - 1))

/-- `".".join(pack.split(".")[:k])`: the package truncated to `k` leading
segments. -/
def truncPkg (p : String) (k : Nat) : String :=
  String.intercalate "." ((pySplitDot p).take k)

/-- Build `packages_depth`: one entry per distinct package, first occurrence
wins, in node-iteration order, carrying its depth. -/
def pdGo : List String → List (String × Nat) → List (String × Nat)
  | [], acc => acc
  | n :: rest, acc =>
    let p := pkgOf n
    pdGo rest (if acc.any (fun kv => kv.1 == p) then acc
               else acc ++ [(p, pkgDepth p)])

/-- `level_depth_frequency[d]`: how many distinct packages sit at depth `d`
(the incremental tally in the source counts exactly the `packages_depth`
entries of that depth). -/
def levelFreq (pd : List (String × Nat)) (d : Nat) : Nat :=
  (pd.filter (fun kv => kv.2 == d)).length

/-- Insert into an ascending list of depths. -/
def insertNat (x : Nat) : List Nat → List Nat
  | [] => [x]
  | y :: ys => if y < x then y :: insertNat x ys else x :: y :: ys

/-- Sort depths ascending (`dict(sorted(..., key=lambda item: item[0]))`,
whose keys are distinct). -/
def sortNat : List Nat → List Nat
  | [] => []
  | x :: xs => insertNat x (sortNat xs)

/-- Stable insertion into a list ascending by depth: an element goes before
every element of equal depth already present later in the original list. -/
def insertByDepth (x : String × Nat) : List (String × Nat) →
    List (String × Nat)
  | [] => [x]
  | y :: ys => if y.2 < x.2 then y :: insertByDepth x ys else x :: y :: ys

/-- `dict(sorted(packages_depth.items(), key=lambda item: item[1]))`:
Python's sort is stable, so entries of equal depth keep their
first-encountered order. -/
def sortByDepth : List (String × Nat) → List (String × Nat)
  | [] => []
  | x :: xs => insertByDepth x (sortByDepth xs)

/-- Advance the round-robin counter as the source does: increment, then
reset to `0` once it reaches `max_part - 1`. -/
def bumpCounter (c m : Int) : Int :=
  if c + 1 ≥ m - 1 then 0 else c + 1

/-- The package-labelling loop of `_assign_init_labels_via_package_names`
over `packages_depth` sorted by depth, threading the `packages` map and the
round-robin counter. Packages shallower than the pivot get `max_part - 1`;
packages at the pivot get `counter % (max_part - 1)`; deeper packages
inherit from their immediate parent if registered, else from their
pivot-truncated ancestor if registered, else take a fresh round-robin id
that is also cached against the pivot-truncated ancestor. `% 0` (when
`max_part = 1`) raises `ZeroDivisionError`, caught by the bare `except`. -/
def pnLoop (m pivot : Int) : List (String × Nat) → List (String × Int) → Int →
    Except String (List (String × Int) × Int)
  | [], pkgs, c => Except.ok (pkgs, c)
  | pk :: rest, pkgs, c =>
    if (pk.2 : Int) < pivot then
      pnLoop m pivot rest (pkgs ++ [(pk.1, m - 1)]) c
    else if (pk.2 : Int) == pivot then do
      let idv ← pyMod c (m - 1)
      pnLoop m pivot rest (pkgs ++ [(pk.1, idv)]) (bumpCounter c m)
    else
      match pkgs.find? (fun kv => kv.1 == parentPkg pk.1) with
      | Option.some kv => pnLoop m pivot rest (pkgs ++ [(pk.1, kv.2)]) c
      | Option.none =>
        let troot := truncPkg pk.1 pivot.toNat
        match pkgs.find? (fun kv => kv.1 == troot) with
        | Option.some kv => pnLoop m pivot rest (pkgs ++ [(pk.1, kv.2)]) c
        | Option.none => do
          let idv ← pyMod c (m - 1)
          pnLoop m pivot rest (pkgs ++ [(pk.1, idv), (troot, idv)])
            (bumpCounter c m)

/-- The final node-labelling loop: each node takes its package's id from
the `packages` map, or `max_part - 1` when its package was never
registered. -/
def pnApply (pkgs : List (String × Int)) (m : Int) :
    List String → Graph → Graph
  | [], g => g
  | n :: rest, g =>
    let v := ((pkgs.find? (fun kv => kv.1 == pkgOf n)).map
      (fun kv => kv.2)).getD (m - 1)
    pnApply pkgs m rest (setPartition g n (PyVal.int v))

/-- The pivot depth: scanning depths ascending, the first whose distinct
package count is at least `max_part - 1`; `-1` when none qualifies. -/
def pivotOf (pd : List (String × Nat)) (m : Int) : Int :=
  match (sortNat (firstDedup (pd.map (fun kv => kv.2)))).find?
      (fun d => (levelFreq pd d : Int) ≥ m - 1) with
  | Option.some d => (d : Int)
  | Option.none => -1

/-- The body of the `try:` block of
`_assign_init_labels_via_package_names`: compute `packages_depth`; when
there are fewer distinct packages than `max_part` (a comparison that raises
`TypeError` on a `None` `max_part`), or when no pivot depth qualifies, fall
back to `random_methods` directly; otherwise run the package-labelling loop
over the depth-sorted packages and label every node. The `None` `match` arm
is unreachable because `pyLtI` has already raised. -/
def pnTry (g : Graph) (mp : Option Int) (r : Rng) :
    Except String (Graph × Rng) := do
  let pd := pdGo (nodeIds g) []
  let lt ← pyLtI (pd.length : Int) mp
  if lt then assignRandomMethods g mp r
  else
    match mp with
    | Option.none => Except.error "TypeError"
    | Option.some m =>
      let pivot := pivotOf pd m
      if pivot == -1 then assignRandomMethods g mp r
      else do
        let res ← pnLoop m pivot (sortByDepth pd) [] 0
        Except.ok (pnApply res.1 m (nodeIds g) g, r)

/-- `_assign_init_labels_via_package_names`: the `try:` body, with the bare
`except:` replacing any failure by a full `random_methods` assignment (the
graph mutations of a failed attempt touch only `partition` attributes,
every one of which `random_methods` rewrites). -/
def assignPackageNames (g : Graph) (mp : Option Int) (r : Rng) :
    Except String (Graph × Rng) :=
  match pnTry g mp r with
  | Except.ok res => Except.ok res
  | Except.error _ => assignRandomMethods g mp r

/-- `_assign_init_labels`: dispatch on the strategy name; any name other
than the three recognized ones selects `package_names`. -/
def assignInitLabels (g : Graph) (initLabels : String) (mp : Option Int)
    (lf : Option (List (PyVal × PyVal))) (r : Rng) :
    Except String (Graph × Rng) :=
  if initLabels == "random_methods" then assignRandomMethods g mp r
  else if initLabels == "random_classes" then assignRandomClasses g mp r
  else if initLabels == "file" then assignViaFile g mp lf r
  else assignPackageNames g mp r

/-- Modelled from the spec (amendment of C4): the package-labelling loop
re-expressed with an unbounded running counter `k`: packages shallower than
the pivot get `max_part - 1`; the successive pivot-depth packages — in the
order the depth-stable sort presents them, i.e. first-encountered order
within the pivot depth — get `k % (max_part - 1)` for `k = 0, 1, 2, ...`;
deeper packages inherit from their immediate parent if registered, else
from their pivot-truncated ancestor if registered, else take the next
round-robin id, cached also against the pivot-truncated ancestor. -/
def pnSpecLoop (m pivot : Int) : List (String × Nat) → List (String × Int) →
    Nat → List (String × Int)
  | [], pkgs, _ => pkgs
  | pk :: rest, pkgs, k =>
    if (pk.2 : Int) < pivot then
      pnSpecLoop m pivot rest (pkgs ++ [(pk.1, m - 1)]) k
    else if (pk.2 : Int) == pivot then
      pnSpecLoop m pivot rest (pkgs ++ [(pk.1, (k : Int) % (m - 1))]) (k + 1)
    else
      match pkgs.find? (fun kv => kv.1 == parentPkg pk.1) with
      | Option.some kv => pnSpecLoop m pivot rest (pkgs ++ [(pk.1, kv.2)]) k
      | Option.none =>
        let troot := truncPkg pk.1 pivot.toNat
        match pkgs.find? (fun kv => kv.1 == troot) with
        | Option.some kv => pnSpecLoop m pivot rest (pkgs ++ [(pk.1, kv.2)]) k
        | Option.none =>
          pnSpecLoop m pivot rest
            (pkgs ++ [(pk.1, (k : Int) % (m - 1)), (troot, (k : Int) % (m - 1))])
            (k + 1)

/-- Modelled from the spec (amendment of C4): every node takes the id
registered for its package, and a node whose package was never registered
takes the catch-all id `max_part - 1`. -/
def pnSpecApply (pkgs : List (String × Int)) (m : Int) (g : Graph) :
    List String → Graph
  | [] => g
  | n :: rest =>
    let v := match pkgs.find? (fun kv => kv.1 == pkgOf n) with
      | Option.some kv => kv.2
      | Option.none => m - 1
    pnSpecApply pkgs m (setPartition g n (PyVal.int v)) rest

/-- `in-degree + out-degree` of a node in the multigraph, counting parallel
edges (`networkx` degree for a `MultiDiGraph`). -/
def degreeOf (g : Graph) (n : String) : Nat :=
  (g.edges.filter (fun e => e.source == n)).length +
    (g.edges.filter (fun e => e.target == n)).length

/-- `nx.degree_centrality`: degree divided by `N - 1`; for a graph with at
most one node, every node scores `1`. -/
def degreeCentrality (g : Graph) : List (String × ℚ) :=
  if g.nodes.length ≤ 1 then (nodeIds g).map (fun n => (n, 1))
  else (nodeIds g).map (fun n =>
    (n, (degreeOf g n : ℚ) / ((g.nodes.length : ℚ) - 1)))

/-- An output record of `execute`: the original input record together with
the partition it was annotated with and its centrality (defaulted to `0`
by the `try`/`except` when the centrality lookup fails). -/
structure OutRec where
  orig : NodeRec
  part : PyVal
  centrality : ℚ
deriving DecidableEq, Repr

/-- The assembly tail of `execute`: compute degree centrality on the final
graph and annotate every original node record (duplicates included) with
its node's partition and centrality. The class-level rollup
(`TransformGraph.from_method_graph_to_class_graph`) is a pure function of
this view and is outside the core, so the method-level view is the output
here. -/
def assemble (doc : SDGDoc) (g : Graph) : List OutRec × List EdgeRec :=
  let dc := degreeCentrality g
  (doc.nodes.map (fun rec =>
    { orig := rec
      part := getPartition g rec.id
      centrality := ((dc.find? (fun kv => kv.1 == rec.id)).map
        (fun kv => kv.2)).getD 0 }), doc.edges)

/-- `execute` on an already-constructed graph: seed, propagate (with fuel,
since the Python loop is unbounded; `Option.none` means the loop was still
running), then assemble. -/
def cargoExecute (doc : SDGDoc) (g : Graph) (initLabels : String)
    (mp : Option Int) (lf : Option (List (PyVal × PyVal))) (fuel : Nat)
    (r : Rng) : Except String (Option (List OutRec × List EdgeRec)) := do
  let p ← assignInitLabels g initLabels mp lf r
  match propagateLoop fuel p.1 p.2 with
  | Option.none => Except.ok Option.none
  | Option.some q => Except.ok (Option.some (assemble doc q.1))

/-- A complete run: `Cargo.__init__` (which seeds the global generator with
the constant `42`, replacing the ambient state, and builds the graph)
followed by `execute`. -/
def cargoRun (doc : SDGDoc) (initLabels : String) (mp : Option Int)
    (lf : Option (List (PyVal × PyVal))) (fuel : Nat) (ambient : Rng) :
    Except String (Option (List OutRec × List EdgeRec)) := do
  let r0 := seedRng ambient 42
  let g ← json2nx doc
  cargoExecute doc g initLabels mp lf fuel r0

/-! Concrete inputs used to exercise the theorems below. -/

/-- A node with two out-neighbors: `x` labelled `1` behind weight `3` and
`y` labelled `2` behind weight `2`. -/
def exG1 : Graph :=
  { nodes := [("n", [("partition", PyVal.int 7)]),
              ("x", [("partition", PyVal.int 1)]),
              ("y", [("partition", PyVal.int 2)])],
    edges := [⟨"n", "x", 3, "call"⟩, ⟨"n", "y", 2, "call"⟩] }

/-- A two-node seeded graph on which propagation converges in two passes. -/
def exG2 : Graph :=
  { nodes := [("a", [("partition", PyVal.int 1)]),
              ("b", [("partition", PyVal.int 2)])],
    edges := [⟨"a", "b", 1, "call"⟩] }

/-- The fixed point propagation reaches from `exG2`. -/
def exG2fin : Graph :=
  { nodes := [("a", [("partition", PyVal.int 2)]),
              ("b", [("partition", PyVal.int 2)])],
    edges := [⟨"a", "b", 1, "call"⟩] }

/-- Three records with a non-adjacent duplicate id. -/
def exRecsDup : List NodeRec :=
  [⟨"a", [("v", PyVal.int 1)]⟩, ⟨"b", [("v", PyVal.int 0)]⟩,
   ⟨"a", [("v", PyVal.int 2)]⟩]

/-- Three records whose duplicate ids are adjacent. -/
def exRecsAdj : List NodeRec :=
  [⟨"a", [("v", PyVal.int 1)]⟩, ⟨"a", [("v", PyVal.int 9)]⟩,
   ⟨"b", [("v", PyVal.int 0)]⟩]

/-- Four nodes whose packages are `a` (depth 1), `q.r` and `p.s` (the pivot
depth 2, first encountered in this order, which is descending name order),
and `a.b.c` (depth 3, whose only registered ancestor is the shallow `a`). -/
def exG4 : Graph :=
  { nodes := [("a.C.m", [("partition", PyVal.none)]),
              ("q.r.C.m", [("partition", PyVal.none)]),
              ("p.s.C.m", [("partition", PyVal.none)]),
              ("a.b.c.C.m", [("partition", PyVal.none)])],
    edges := [] }

/-- Two nodes sharing the class value `"A"`. -/
def exG5 : Graph :=
  { nodes := [("n0", [("partition", PyVal.none), ("class", PyVal.str "A")]),
              ("n1", [("partition", PyVal.none), ("class", PyVal.str "A")])],
    edges := [] }

/-- A record whose mapping already carries a `partition` key. -/
def exRec9 : NodeRec := ⟨"a", [("partition", PyVal.int 5)]⟩

/-- A labels-file mapping that does not cover class `"A"`. -/
def exMap10 : List (PyVal × PyVal) := [(PyVal.str "B", PyVal.int 1)]

/-! Basic lemmas about the dictionary and graph-attribute operations. -/

theorem find?_map_keyUpdate {β : Type} (d : List (String × β)) (n : String)
    (u : String × β → String × β) (hu : ∀ kv, kv.1 = n → (u kv).1 = n) :
    (d.map (fun kv => if kv.1 == n then u kv else kv)).find?
        (fun kv => kv.1 == n) =
      (d.find? (fun kv => kv.1 == n)).map u := by
  induction d with
  | nil => simp
  | cons a d ih =>
    by_cases h : a.1 = n
    · have h1 : (a.1 == n) = true := beq_iff_eq.mpr h
      have h2 : ((u a).1 == n) = true := beq_iff_eq.mpr (hu a h)
      rw [List.map_cons, if_pos h1,
        @List.find?_cons_of_pos _ (fun kv => kv.1 == n) (u a) _ h2,
        @List.find?_cons_of_pos _ (fun kv => kv.1 == n) a _ h1]
      rfl
    · have h1 : (a.1 == n) = false := beq_eq_false_iff_ne.mpr h
      rw [List.map_cons, if_neg (by simp [h1]),
        @List.find?_cons_of_neg _ (fun kv => kv.1 == n) a _ (by simp [h1]),
        @List.find?_cons_of_neg _ (fun kv => kv.1 == n) a _ (by simp [h1])]
      exact ih

theorem find?_map_keyUpdate_ne {β : Type} (d : List (String × β)) (n n' : String)
    (u : String × β → String × β) (hu : ∀ kv, kv.1 = n → (u kv).1 = n)
    (hne : n' ≠ n) :
    (d.map (fun kv => if kv.1 == n then u kv else kv)).find?
        (fun kv => kv.1 == n') = d.find? (fun kv => kv.1 == n') := by
  induction d with
  | nil => simp
  | cons a d ih =>
    by_cases h : a.1 = n
    · have h1 : (a.1 == n) = true := beq_iff_eq.mpr h
      have h2 : ((u a).1 == n') = false :=
        beq_eq_false_iff_ne.mpr (by rw [hu a h]; exact fun e => hne e.symm)
      have h3 : (a.1 == n') = false :=
        beq_eq_false_iff_ne.mpr (by rw [h]; exact fun e => hne e.symm)
      rw [List.map_cons, if_pos h1,
        @List.find?_cons_of_neg _ (fun kv => kv.1 == n') (u a) _ (by simp [h2]),
        @List.find?_cons_of_neg _ (fun kv => kv.1 == n') a _ (by simp [h3])]
      exact ih
    · have h1 : (a.1 == n) = false := beq_eq_false_iff_ne.mpr h
      rw [List.map_cons, if_neg (by simp [h1])]
      cases ha : (a.1 == n') with
      | true =>
        rw [@List.find?_cons_of_pos _ (fun kv => kv.1 == n') a _ ha,
          @List.find?_cons_of_pos _ (fun kv => kv.1 == n') a _ ha]
      | false =>
        rw [@List.find?_cons_of_neg _ (fun kv => kv.1 == n') a _ (by simp [ha]),
          @List.find?_cons_of_neg _ (fun kv => kv.1 == n') a _ (by simp [ha])]
        exact ih

theorem any_iff_find?_isSome {β : Type} (d : List (String × β)) (n : String) :
    d.any (fun kv => kv.1 == n) = true ↔
      (d.find? (fun kv => kv.1 == n)).isSome = true := by
  rw [List.any_eq_true, List.find?_isSome]

theorem pyGet_dictSet_self (d : List (String × PyVal)) (k : String)
    (v : PyVal) : pyGet (dictSet d k v) k = v := by
  unfold dictSet pyGet
  by_cases h : d.any (fun kv => kv.1 == k) = true
  · rw [if_pos h,
      find?_map_keyUpdate d k (fun _ => (k, v)) (fun kv _ => rfl)]
    obtain ⟨a, ha⟩ := Option.isSome_iff_exists.1 ((any_iff_find?_isSome d k).1 h)
    rw [ha]
    rfl
  · rw [if_neg h, List.find?_append]
    have hnone : d.find? (fun kv => kv.1 == k) = Option.none := by
      rw [List.find?_eq_none]
      intro x hx hp
      exact h (List.any_eq_true.2 ⟨x, hx, hp⟩)
    rw [hnone]
    simp [List.find?]

theorem pyGet_dictSet_ne (d : List (String × PyVal)) (k k' : String)
    (v : PyVal) (hne : k' ≠ k) : pyGet (dictSet d k v) k' = pyGet d k' := by
  unfold dictSet pyGet
  by_cases h : d.any (fun kv => kv.1 == k) = true
  · rw [if_pos h,
      find?_map_keyUpdate_ne d k k' (fun _ => (k, v)) (fun kv _ => rfl) hne]
  · rw [if_neg h, List.find?_append]
    cases hf : d.find? (fun kv => kv.1 == k') with
    | some a => rfl
    | none =>
      have : (k == k') = false := beq_eq_false_iff_ne.mpr (fun e => hne e.symm)
      simp [List.find?, this]

theorem pyGet_dictUpdate_absent (d : List (String × PyVal))
    (kvs : List (String × PyVal)) (k : String)
    (h : ∀ kv ∈ kvs, kv.1 ≠ k) : pyGet (dictUpdate d kvs) k = pyGet d k := by
  induction kvs generalizing d with
  | nil => rfl
  | cons a kvs ih =>
    have ha : a.1 ≠ k := h a (List.mem_cons_self a kvs)
    have hrest : ∀ kv ∈ kvs, kv.1 ≠ k := fun kv hkv => h kv (List.mem_cons_of_mem a hkv)
    show pyGet (dictUpdate (dictSet d a.1 a.2) kvs) k = pyGet d k
    rw [ih (dictSet d a.1 a.2) hrest, pyGet_dictSet_ne d a.1 k a.2 (fun e => ha e.symm)]

theorem nodeIds_setNodeAttr (g : Graph) (n k : String) (v : PyVal) :
    nodeIds (setNodeAttr g n k v) = nodeIds g := by
  unfold nodeIds setNodeAttr
  simp only [List.map_map]
  apply List.map_congr_left
  intro kv _
  by_cases h : kv.1 = n <;> simp [h]

theorem edges_setNodeAttr (g : Graph) (n k : String) (v : PyVal) :
    (setNodeAttr g n k v).edges = g.edges := rfl

theorem mem_nodeIds_iff_any (g : Graph) (n : String) :
    n ∈ nodeIds g ↔ g.nodes.any (fun kv => kv.1 == n) = true := by
  unfold nodeIds
  rw [List.any_eq_true]
  constructor
  · intro h
    obtain ⟨a, ha, he⟩ := List.mem_map.1 h
    exact ⟨a, ha, beq_iff_eq.mpr he⟩
  · rintro ⟨a, ha, he⟩
    exact List.mem_map.2 ⟨a, ha, beq_iff_eq.mp he⟩

theorem attrsOf_setNodeAttr_self (g : Graph) (n k : String) (v : PyVal) :
    attrsOf (setNodeAttr g n k v) n =
      if g.nodes.any (fun kv => kv.1 == n) then dictSet (attrsOf g n) k v
      else [] := by
  unfold attrsOf setNodeAttr
  simp only
  rw [find?_map_keyUpdate g.nodes n (fun kv => (kv.1, dictSet kv.2 k v))
    (fun kv h => h)]
  by_cases h : g.nodes.any (fun kv => kv.1 == n) = true
  · rw [if_pos h]
    obtain ⟨a, ha⟩ := Option.isSome_iff_exists.1 ((any_iff_find?_isSome _ n).1 h)
    rw [ha]
    rfl
  · rw [if_neg h]
    have hnone : g.nodes.find? (fun kv => kv.1 == n) = Option.none := by
      rw [List.find?_eq_none]
      intro x hx hp
      exact h (List.any_eq_true.2 ⟨x, hx, hp⟩)
    rw [hnone]
    rfl

theorem attrsOf_setNodeAttr_ne (g : Graph) (n n' k : String) (v : PyVal)
    (hne : n' ≠ n) : attrsOf (setNodeAttr g n k v) n' = attrsOf g n' := by
  unfold attrsOf setNodeAttr
  simp only
  rw [find?_map_keyUpdate_ne g.nodes n n' (fun kv => (kv.1, dictSet kv.2 k v))
    (fun kv h => h) hne]

theorem getPartition_setPartition_self (g : Graph) (n : String) (v : PyVal)
    (hn : n ∈ nodeIds g) : getPartition (setPartition g n v) n = v := by
  unfold getPartition setPartition
  rw [attrsOf_setNodeAttr_self, if_pos ((mem_nodeIds_iff_any g n).1 hn)]
  exact pyGet_dictSet_self _ _ _

theorem getPartition_setPartition_ne (g : Graph) (n n' : String) (v : PyVal)
    (hne : n' ≠ n) : getPartition (setPartition g n v) n' = getPartition g n' := by
  unfold getPartition setPartition
  rw [attrsOf_setNodeAttr_ne g n n' _ v hne]

theorem nodeIds_setPartition (g : Graph) (n : String) (v : PyVal) :
    nodeIds (setPartition g n v) = nodeIds g :=
  nodeIds_setNodeAttr g n _ v

/-! Lemmas about first-occurrence deduplication and `statistics.mode`. -/

theorem mem_firstDedupGo {α : Type} [BEq α] [LawfulBEq α] (l : List α)
    (seen : List α) (a : α) :
    a ∈ firstDedupGo seen l ↔ a ∈ l ∧ a ∉ seen := by
  induction l generalizing seen with
  | nil => simp [firstDedupGo]
  | cons b l ih =>
    by_cases hb : seen.contains b
    · rw [firstDedupGo, if_pos hb, ih]
      have hbmem : b ∈ seen := List.elem_iff.mp hb
      constructor
      · rintro ⟨h1, h2⟩
        exact ⟨List.mem_cons_of_mem b h1, h2⟩
      · rintro ⟨h1, h2⟩
        rcases List.mem_cons.1 h1 with rfl | h1
        · exact absurd hbmem h2
        · exact ⟨h1, h2⟩
    · rw [firstDedupGo, if_neg hb]
      have hbmem : b ∉ seen := fun h => hb (List.elem_iff.mpr h)
      constructor
      · intro h
        rcases List.mem_cons.1 h with rfl | h
        · exact ⟨List.mem_cons_self a l, hbmem⟩
        · obtain ⟨h1, h2⟩ := (ih (seen ++ [b])).1 h
          simp only [List.mem_append, List.mem_singleton, not_or] at h2
          exact ⟨List.mem_cons_of_mem b h1, h2.1⟩
      · rintro ⟨h1, h2⟩
        rcases List.mem_cons.1 h1 with rfl | h1
        · exact List.mem_cons_self a _
        · by_cases hab : a = b
          · subst hab; exact List.mem_cons_self a _
          · refine List.mem_cons_of_mem b ((ih (seen ++ [b])).2 ⟨h1, ?_⟩)
            simp [h2, hab]

theorem mem_firstDedup {α : Type} [BEq α] [LawfulBEq α] (l : List α) (a : α) :
    a ∈ firstDedup l ↔ a ∈ l := by
  rw [firstDedup, mem_firstDedupGo]
  simp

theorem firstDedup_ne_nil {α : Type} [BEq α] [LawfulBEq α] (l : List α)
    (hl : l ≠ []) : firstDedup l ≠ [] := by
  obtain ⟨x, t, rfl⟩ := List.exists_cons_of_ne_nil hl
  rw [firstDedup, firstDedupGo]
  simp

theorem le_foldr_max (xs : List Nat) (x : Nat) (hx : x ∈ xs) :
    x ≤ xs.foldr Nat.max 0 := by
  induction xs with
  | nil => cases hx
  | cons y xs ih =>
    rcases List.mem_cons.1 hx with rfl | hx
    · exact Nat.le_max_left _ _
    · exact Nat.le_trans (ih hx) (Nat.le_max_right _ _)

theorem nat_max_eq_right {y z : Nat} (h : y ≤ z) : Nat.max y z = z := by
  unfold Nat.max
  omega

theorem nat_max_eq_left {y z : Nat} (h : z ≤ y) : Nat.max y z = y := by
  unfold Nat.max
  omega

theorem foldr_max_attained (xs : List Nat) :
    xs.foldr Nat.max 0 = 0 ∨ xs.foldr Nat.max 0 ∈ xs := by
  induction xs with
  | nil => exact Or.inl rfl
  | cons y xs ih =>
    rcases Nat.le_total y (xs.foldr Nat.max 0) with h | h
    · rw [List.foldr_cons, nat_max_eq_right h]
      rcases ih with h0 | hmem
      · exact Or.inl h0
      · exact Or.inr (List.mem_cons_of_mem y hmem)
    · rw [List.foldr_cons, nat_max_eq_left h]
      exact Or.inr (List.mem_cons_self y xs)

theorem count_le_maxCount (l : List PyVal) (a : PyVal) :
    l.count a ≤ maxCount l := by
  by_cases h : a ∈ l
  · exact le_foldr_max _ _ (List.mem_map.2 ⟨a, (mem_firstDedup l a).2 h, rfl⟩)
  · rw [List.count_eq_zero.2 h]
    exact Nat.zero_le _

theorem maxCount_attained (l : List PyVal) (hl : l ≠ []) :
    ∃ x ∈ firstDedup l, l.count x = maxCount l := by
  rcases foldr_max_attained ((firstDedup l).map (fun a => l.count a)) with h | h
  · obtain ⟨x, t, rfl⟩ := List.exists_cons_of_ne_nil hl
    have h1 : 0 < (x :: t).count x :=
      List.count_pos_iff.2 (List.mem_cons_self x t)
    have h2 := count_le_maxCount (x :: t) x
    rw [maxCount] at h2
    omega
  · obtain ⟨x, hx, he⟩ := List.mem_map.1 h
    exact ⟨x, hx, he⟩

theorem pymode_spec (l : List PyVal) (hl : l ≠ []) :
    ∃ m, pymode l = Option.some m ∧ l.count m = maxCount l ∧
      ∀ a, l.count a ≤ l.count m := by
  obtain ⟨x, hx, hc⟩ := maxCount_attained l hl
  have hs : ((firstDedup l).find? (fun a => l.count a == maxCount l)).isSome :=
    List.find?_isSome.2 ⟨x, hx, by simp [hc]⟩
  obtain ⟨m, hm⟩ := Option.isSome_iff_exists.1 hs
  have hp : l.count m = maxCount l := by simpa using List.find?_some hm
  refine ⟨m, hm, hp, fun a => ?_⟩
  rw [hp]
  exact count_le_maxCount l a

theorem pymode_eq_none_iff (l : List PyVal) :
    pymode l = Option.none ↔ l = [] := by
  constructor
  · intro h
    by_contra hl
    obtain ⟨m, hm, -⟩ := pymode_spec l hl
    rw [h] at hm
    cases hm
  · rintro rfl
    rfl

/-- C1: in a propagation step the vote multiset of a node is built only
from its out-neighbors — for every label, its multiplicity is the sum over
out-neighbors carrying that label of the truncated weight of the
representative (index-`0`) parallel edge to that neighbor — so an edge of
weight in `[0, 1)` contributes zero votes; and when the multiset is
non-empty the node adopts a most frequent label in it. -/
theorem propagation_votes_and_mode (g : Graph) (n : String)
    (hn : n ∈ nodeIds g) :
    (∀ lb : PyVal, (votes g n).count lb =
        ((outNeighbors g n).map (fun v =>
          if getPartition g v = lb then (pyTrunc (repWeight g n v)).toNat
          else 0)).sum)
    ∧ (∀ v : String, 0 ≤ repWeight g n v → repWeight g n v < 1 →
        (pyTrunc (repWeight g n v)).toNat = 0)
    ∧ (votes g n ≠ [] → ∃ m, pymode (votes g n) = Option.some m ∧
        (∀ lb, (votes g n).count lb ≤ (votes g n).count m) ∧
        getPartition (nodeStep g n).1 n = m) := by
  refine ⟨?_, ?_, ?_⟩
  · intro lb
    rw [votes, List.count_flatMap]
    congr 1
    apply List.map_congr_left
    intro v _
    simp only [Function.comp_apply, List.count_replicate]
    by_cases h : getPartition g v = lb
    · rw [if_pos (beq_iff_eq.mpr h), if_pos h]
    · rw [if_neg (by simpa using h), if_neg h]
  · intro v h0 h1
    have hn0 : 0 ≤ (repWeight g n v).num := Rat.num_nonneg.2 h0
    have hlt : (repWeight g n v).num < ((repWeight g n v).den : Int) :=
      Rat.lt_one_iff_num_lt_denom.mp h1
    rw [pyTrunc, Int.tdiv_eq_zero_of_lt hn0 hlt]
    rfl
  · intro hne
    obtain ⟨m, hm, hmax, hall⟩ := pymode_spec (votes g n) hne
    refine ⟨m, hm, hall, ?_⟩
    by_cases h : m = getPartition g n
    · simp only [nodeStep, hm, if_pos (beq_iff_eq.mpr h)]
      exact h.symm
    · simp only [nodeStep, hm,
        if_neg (show ¬(m == getPartition g n) = true by simpa using h)]
      exact getPartition_setPartition_self g n m hn

/-- C1 witness: on the `exG1` graph the vote list of `n` is three votes for
label `1` and two for label `2` (weights `3` and `2` truncated), and the
step adopts label `1`. -/
theorem propagation_votes_and_mode_witness :
    votes exG1 "n" =
      [PyVal.int 1, PyVal.int 1, PyVal.int 1, PyVal.int 2, PyVal.int 2] ∧
    getPartition (nodeStep exG1 "n").1 "n" = PyVal.int 1 := by
  refine ⟨by decide, ?_⟩
  obtain ⟨m, hm, -, hstep⟩ :=
    (propagation_votes_and_mode exG1 "n" (by decide)).2.2 (by decide)
  have hmode : pymode (votes exG1 "n") = Option.some (PyVal.int 1) := by decide
  rw [hm] at hmode
  cases hmode
  exact hstep

/-! The propagation loop and its fixed point. -/

theorem nodeStep_false_eq (g : Graph) (n : String)
    (h : (nodeStep g n).2 = false) : (nodeStep g n).1 = g := by
  cases hm : pymode (votes g n) with
  | none => simp only [nodeStep, hm]
  | some m =>
    simp only [nodeStep, hm] at h ⊢
    by_cases hb : (m == getPartition g n) = true
    · rw [if_pos hb]
    · rw [if_neg hb] at h
      cases h

theorem passFrom_snd_mono (order : List String) :
    ∀ (g : Graph) (c : Nat), c ≤ (passFrom g c order).2 := by
  induction order with
  | nil => intro g c; exact Nat.le_refl c
  | cons n rest ih =>
    intro g c
    rw [passFrom]
    exact Nat.le_trans (Nat.le_add_right c _) (ih _ _)

theorem passFrom_of_all_false (order : List String) :
    ∀ (g : Graph) (c : Nat), (∀ n ∈ order, (nodeStep g n).2 = false) →
      passFrom g c order = (g, c) := by
  induction order with
  | nil => intro g c _; rfl
  | cons n rest ih =>
    intro g c h
    have hhead : (nodeStep g n).2 = false := h n (List.mem_cons_self n rest)
    have heq : (nodeStep g n).1 = g := nodeStep_false_eq g n hhead
    rw [passFrom, heq, hhead]
    simpa using ih g c (fun n' hn' => h n' (List.mem_cons_of_mem n hn'))

theorem passFrom_count_fixed (order : List String) :
    ∀ (g : Graph) (c : Nat), (passFrom g c order).2 = c →
      (passFrom g c order).1 = g ∧ ∀ n ∈ order, (nodeStep g n).2 = false := by
  induction order with
  | nil =>
    intro g c _
    exact ⟨rfl, by intro n hn; cases hn⟩
  | cons n rest ih =>
    intro g c h
    rw [passFrom] at h
    cases hs : (nodeStep g n).2 with
    | true =>
      rw [hs] at h
      simp only [if_true] at h
      have hmono := passFrom_snd_mono rest (nodeStep g n).1 (c + 1)
      rw [h] at hmono
      omega
    | false =>
      rw [hs] at h
      simp only [Bool.false_eq_true, if_false, Nat.add_zero] at h
      have heq : (nodeStep g n).1 = g := nodeStep_false_eq g n hs
      rw [heq] at h
      obtain ⟨h1, h2⟩ := ih g c h
      refine ⟨?_, ?_⟩
      · rw [passFrom, heq, hs]
        simpa using h1
      · intro n' hn'
        rcases List.mem_cons.1 hn' with rfl | hn'
        · exact hs
        · exact h2 n' hn'

theorem getD_cons_eraseIdx_perm {α : Type} :
    ∀ (l : List α) (j : Nat) (d : α), j < l.length →
      (l.getD j d :: l.eraseIdx j).Perm l := by
  intro l
  induction l with
  | nil => intro j d h; cases h
  | cons x xs ih =>
    intro j d h
    cases j with
    | zero => exact List.Perm.refl _
    | succ j =>
      have hj : j < xs.length := by simpa using h
      have : (x :: xs).getD (j + 1) d = xs.getD j d := rfl
      rw [this, List.eraseIdx_cons_succ]
      exact (List.Perm.swap x (xs.getD j d) (xs.eraseIdx j)).trans
        ((ih j d hj).cons x)

theorem shuffleGo_perm : ∀ (fuel : Nat) (l : List String) (r : Rng),
    (shuffleGo fuel l r).1.Perm l := by
  intro fuel
  induction fuel with
  | zero => intro l r; exact List.Perm.refl l
  | succ fuel ih =>
    intro l r
    cases l with
    | nil => exact List.Perm.refl _
    | cons x xs =>
      rw [shuffleGo]
      have hj : (rngNext r).1 % (x :: xs).length < (x :: xs).length :=
        Nat.mod_lt _ (by simp)
      exact ((ih _ _).cons _).trans
        (getD_cons_eraseIdx_perm (x :: xs) _ x hj)

theorem shuffle_perm (l : List String) (r : Rng) : (shuffle l r).1.Perm l :=
  shuffleGo_perm l.length l r

theorem propagateLoop_last_pass : ∀ (fuel : Nat) (g : Graph) (r : Rng)
    (g' : Graph) (r' : Rng),
    propagateLoop fuel g r = Option.some (g', r') →
    ∃ (g0 : Graph) (r0 : Rng),
      propagatePass (shuffle (nodeIds g0) r0).1 g0 = (g', 0) ∧
      r' = (shuffle (nodeIds g0) r0).2 := by
  intro fuel
  induction fuel with
  | zero => intro g r g' r' h; cases h
  | succ fuel ih =>
    intro g r g' r' h
    rw [propagateLoop] at h
    by_cases hz :
        (propagatePass (shuffle (nodeIds g) r).1 g).2 == 0
    · rw [if_pos hz] at h
      obtain ⟨h1, h2⟩ := Prod.mk.injEq .. ▸ Option.some.injEq .. ▸ h
      refine ⟨g, r, ?_, h2.symm⟩
      have hz' : (propagatePass (shuffle (nodeIds g) r).1 g).2 = 0 :=
        Nat.beq_eq ▸ (by simpa using hz)
      calc propagatePass (shuffle (nodeIds g) r).1 g
          = ((propagatePass (shuffle (nodeIds g) r).1 g).1,
             (propagatePass (shuffle (nodeIds g) r).1 g).2) := rfl
        _ = (g', 0) := by rw [h1, hz']
    · rw [if_neg hz] at h
      exact ih _ _ _ _ h

/-- C2: whenever the propagation loop returns (which it does only after a
complete pass with zero changes), the result is a fixed point — a further
pass in any visitation order over the graph's nodes makes zero changes and
leaves the graph unchanged, and invoking the whole propagation operation
again returns the same graph after its single pass. -/
theorem propagation_fixed_point (fuel : Nat) (g : Graph) (r : Rng)
    (g' : Graph) (r' : Rng)
    (h : propagateLoop fuel g r = Option.some (g', r')) :
    (∀ order : List String, (∀ n ∈ order, n ∈ nodeIds g') →
      propagatePass order g' = (g', 0))
    ∧ ∀ (fuel' : Nat) (r2 : Rng), propagateLoop (fuel' + 1) g' r2 =
        Option.some (g', (shuffle (nodeIds g') r2).2) := by
  obtain ⟨g0, r0, hpass, hr⟩ := propagateLoop_last_pass fuel g r g' r' h
  have hsnd : (passFrom g0 0 (shuffle (nodeIds g0) r0).1).2 = 0 := by
    rw [show passFrom g0 0 (shuffle (nodeIds g0) r0).1
        = propagatePass (shuffle (nodeIds g0) r0).1 g0 from rfl, hpass]
  obtain ⟨hfst, hallσ⟩ :=
    passFrom_count_fixed (shuffle (nodeIds g0) r0).1 g0 0 hsnd
  have hg0 : g' = g0 := by
    have : (propagatePass (shuffle (nodeIds g0) r0).1 g0).1 = g' := by
      rw [hpass]
    rw [← this]
    exact hfst
  subst hg0
  have hall : ∀ n ∈ nodeIds g', (nodeStep g' n).2 = false := fun n hn =>
    hallσ n ((shuffle_perm (nodeIds g') r0).mem_iff.2 hn)
  have main : ∀ order : List String, (∀ n ∈ order, n ∈ nodeIds g') →
      propagatePass order g' = (g', 0) := by
    intro order hsub
    exact passFrom_of_all_false order g' 0 (fun n hn => hall n (hsub n hn))
  refine ⟨main, ?_⟩
  intro fuel' r2
  rw [propagateLoop]
  have hp2 : propagatePass (shuffle (nodeIds g') r2).1 g' = (g', 0) :=
    main _ (fun n hn => (shuffle_perm (nodeIds g') r2).mem_iff.1 hn)
  rw [hp2]
  simp

/-- C2 witness: on `exG2` the loop converges (to `exG2fin`), and a further
pass over both nodes makes zero changes. -/
theorem propagation_fixed_point_witness :
    propagateLoop 3 exG2 0 = Option.some (exG2fin, 1449466924) ∧
    propagatePass ["a", "b"] exG2fin = (exG2fin, 0) := by
  have h : propagateLoop 3 exG2 0 = Option.some (exG2fin, 1449466924) := by
    decide
  exact ⟨h,
    (propagation_fixed_point 3 exG2 0 exG2fin 1449466924 h).1 ["a", "b"]
      (by decide)⟩

/-! The random_methods seeding strategy. -/

theorem randint_mem (a b : Int) (r : Rng) (h : a ≤ b) :
    a ≤ (randint a b r).1 ∧ (randint a b r).1 ≤ b := by
  unfold randint
  have hpos : (0 : Int) < b - a + 1 := by omega
  have h0 : 0 ≤ ((rngNext r).1 : Int) % (b - a + 1) :=
    Int.emod_nonneg _ (by omega)
  have h1 : ((rngNext r).1 : Int) % (b - a + 1) < b - a + 1 :=
    Int.emod_lt_of_pos _ hpos
  constructor <;> simp only <;> omega

/-- The value and state of the `j`-th successive `randint(1, m)` draw. -/
def nthDraw (m : Int) (r : Rng) : Nat → Int × Rng
  | 0 => randint 1 m r
  | j + 1 => randint 1 m (nthDraw m r j).2

theorem nthDraw_succ_shift (m : Int) (r : Rng) :
    ∀ j, nthDraw m r (j + 1) = nthDraw m (randint 1 m r).2 j := by
  intro j
  induction j with
  | zero => simp [nthDraw]
  | succ j ih =>
    rw [show nthDraw m r (j + 1 + 1) = randint 1 m (nthDraw m r (j + 1)).2
        from rfl, ih]
    rfl

theorem rmGo_lt2_ok (m : Int) (hm : m < 2) :
    ∀ (l : List String) (i : Nat) (g : Graph) (r : Rng),
    l.Nodup → (∀ x ∈ l, x ∈ nodeIds g) →
    ∃ g', rmGo (Option.some m) i l g r = Except.ok (g', r) ∧
      nodeIds g' = nodeIds g ∧
      (∀ n, n ∉ l → getPartition g' n = getPartition g n) ∧
      (∀ j (h : j < l.length), getPartition g' (l.get ⟨j, h⟩) =
        PyVal.int (i + j)) := by
  intro l
  induction l with
  | nil =>
    intro i g r _ _
    exact ⟨g, rfl, rfl, fun n _ => rfl, fun j h => absurd h (by simp)⟩
  | cons n rest ih =>
    intro i g r hnd hsub
    have hd : decide (m < 2) = true := decide_eq_true hm
    have hn : n ∈ nodeIds g := hsub n (List.mem_cons_self n rest)
    have hnr : n ∉ rest := (List.nodup_cons.1 hnd).1
    obtain ⟨g', hok, hids, hpres, hidx⟩ :=
      ih (i + 1) (setPartition g n (PyVal.int i)) r (List.nodup_cons.1 hnd).2
        (fun x hx => by
          rw [nodeIds_setPartition]
          exact hsub x (List.mem_cons_of_mem n hx))
    refine ⟨g', ?_, ?_, ?_, ?_⟩
    · rw [rmGo]
      simp only [pyLt, hd]
      exact hok
    · rw [hids, nodeIds_setPartition]
    · intro n' hn'
      have h1 : n' ∉ rest := fun h => hn' (List.mem_cons_of_mem n h)
      have h2 : n' ≠ n := fun h => hn' (h ▸ List.mem_cons_self n rest)
      rw [hpres n' h1, getPartition_setPartition_ne g n n' _ h2]
    · intro j h
      cases j with
      | zero =>
        show getPartition g' n = PyVal.int (i + 0)
        rw [hpres n hnr, getPartition_setPartition_self g n _ hn]
        norm_num
      | succ j =>
        have hj : j < rest.length := by simpa using h
        have := hidx j hj
        show getPartition g' (rest.get ⟨j, hj⟩) = PyVal.int (i + (j + 1))
        rw [this]
        congr 1
        omega

theorem rmGo_ge2_ok (m : Int) (hm : 2 ≤ m) :
    ∀ (l : List String) (i : Nat) (g : Graph) (r : Rng),
    l.Nodup → (∀ x ∈ l, x ∈ nodeIds g) →
    ∃ g' r', rmGo (Option.some m) i l g r = Except.ok (g', r') ∧
      nodeIds g' = nodeIds g ∧
      (∀ n, n ∉ l → getPartition g' n = getPartition g n) ∧
      (∀ j (h : j < l.length), getPartition g' (l.get ⟨j, h⟩) =
        PyVal.int (nthDraw m r j).1) := by
  intro l
  induction l with
  | nil =>
    intro i g r _ _
    exact ⟨g, r, rfl, rfl, fun n _ => rfl, fun j h => absurd h (by simp)⟩
  | cons n rest ih =>
    intro i g r hnd hsub
    have hd : decide (m < 2) = false := decide_eq_false (by omega)
    have hn : n ∈ nodeIds g := hsub n (List.mem_cons_self n rest)
    have hnr : n ∉ rest := (List.nodup_cons.1 hnd).1
    obtain ⟨g', r', hok, hids, hpres, hidx⟩ :=
      ih (i + 1) (setPartition g n (PyVal.int (randint 1 m r).1))
        (randint 1 m r).2 (List.nodup_cons.1 hnd).2
        (fun x hx => by
          rw [nodeIds_setPartition]
          exact hsub x (List.mem_cons_of_mem n hx))
    refine ⟨g', r', ?_, ?_, ?_, ?_⟩
    · rw [rmGo]
      simp only [pyLt, hd]
      exact hok
    · rw [hids, nodeIds_setPartition]
    · intro n' hn'
      have h1 : n' ∉ rest := fun h => hn' (List.mem_cons_of_mem n h)
      have h2 : n' ≠ n := fun h => hn' (h ▸ List.mem_cons_self n rest)
      rw [hpres n' h1, getPartition_setPartition_ne g n n' _ h2]
    · intro j h
      cases j with
      | zero =>
        show getPartition g' n = PyVal.int (nthDraw m r 0).1
        rw [hpres n hnr, getPartition_setPartition_self g n _ hn]
        rfl
      | succ j =>
        have hj : j < rest.length := by simpa using h
        have := hidx j hj
        show getPartition g' (rest.get ⟨j, hj⟩) = PyVal.int (nthDraw m r (j + 1)).1
        rw [this, nthDraw_succ_shift]

/-- C7: with `max_part < 2`, `random_methods` gives the `i`-th node of the
iteration order the label `i` — a bijection onto the node index sequence,
with the generator untouched; with `max_part ≥ 2`, the `i`-th node takes
the value of the `i`-th successive `randint(1, max_part)` draw, which lies
in `[1, max_part]`. -/
theorem random_methods_spec (g : Graph) (m : Int) (r : Rng)
    (hnd : (nodeIds g).Nodup) :
    (m < 2 → ∃ g', assignRandomMethods g (Option.some m) r = Except.ok (g', r) ∧
      ∀ j (h : j < (nodeIds g).length),
        getPartition g' ((nodeIds g).get ⟨j, h⟩) = PyVal.int j)
    ∧ (2 ≤ m → ∃ g' r',
      assignRandomMethods g (Option.some m) r = Except.ok (g', r') ∧
      ∀ j (h : j < (nodeIds g).length),
        getPartition g' ((nodeIds g).get ⟨j, h⟩) =
          PyVal.int (nthDraw m r j).1 ∧
        1 ≤ (nthDraw m r j).1 ∧ (nthDraw m r j).1 ≤ m) := by
  constructor
  · intro hm
    obtain ⟨g', hok, _, _, hidx⟩ :=
      rmGo_lt2_ok m hm (nodeIds g) 0 g r hnd (fun x hx => hx)
    refine ⟨g', hok, fun j h => ?_⟩
    have := hidx j h
    simpa using this
  · intro hm
    obtain ⟨g', r', hok, _, _, hidx⟩ :=
      rmGo_ge2_ok m hm (nodeIds g) 0 g r hnd (fun x hx => hx)
    refine ⟨g', r', hok, fun j h => ?_⟩
    refine ⟨hidx j h, ?_⟩
    have hrange : 1 ≤ (nthDraw m r j).1 ∧ (nthDraw m r j).1 ≤ m := by
      cases j with
      | zero => exact randint_mem 1 m r (by omega)
      | succ j => exact randint_mem 1 m _ (by omega)
    exact hrange

/-- C7 witness: on the two-node graph `exG5` with `max_part = 0` the nodes
take labels `0` and `1`, their positions. -/
theorem random_methods_spec_witness :
    ∃ g', assignRandomMethods exG5 (Option.some 0) 0 = Except.ok (g', 0) ∧
      getPartition g' "n0" = PyVal.int 0 ∧
      getPartition g' "n1" = PyVal.int 1 := by
  obtain ⟨g', hok, hidx⟩ :=
    (random_methods_spec exG5 0 0 (by decide)).1 (by decide)
  refine ⟨g', hok, ?_, ?_⟩
  · have := hidx 0 (by decide)
    simpa using this
  · have := hidx 1 (by decide)
    simpa using this


/-! The random_classes seeding strategy with `max_part < 2`. -/

theorem any_iff_findSome {a : Type} (p : a → Bool) (l : List a) :
    l.any p = true ↔ (l.find? p).isSome = true := by
  rw [List.any_eq_true, List.find?_isSome]

theorem find?_nodes_get (l : List (String × List (String × PyVal)))
    (hnd : (l.map Prod.fst).Nodup) :
    ∀ j (h : j < l.length),
      l.find? (fun kv => kv.1 == (l.get ⟨j, h⟩).1) =
        Option.some (l.get ⟨j, h⟩) := by
  induction l with
  | nil => intro j h; cases h
  | cons a t ih =>
    intro j h
    cases j with
    | zero => exact List.find?_cons_of_pos t (by simp)
    | succ j =>
      have hj : j < t.length := by simpa using h
      have hmem : (t.get ⟨j, hj⟩).1 ∈ t.map Prod.fst :=
        List.mem_map.2 ⟨t.get ⟨j, hj⟩, List.get_mem t j hj, rfl⟩
      have hne : a.1 ≠ (t.get ⟨j, hj⟩).1 := fun e =>
        (List.nodup_cons.1 hnd).1 (e ▸ hmem)
      have hg : ((a :: t).get ⟨j + 1, h⟩) = (t.get ⟨j, hj⟩) := rfl
      rw [hg, List.find?_cons_of_neg _ (by simpa using hne)]
      exact ih (List.nodup_cons.1 hnd).2 j hj

theorem attrsOf_get_of_nodup (g : Graph) (hnd : (nodeIds g).Nodup) :
    ∀ j (h : j < g.nodes.length),
      attrsOf g (g.nodes.get ⟨j, h⟩).1 = (g.nodes.get ⟨j, h⟩).2 := by
  intro j h
  unfold attrsOf
  rw [find?_nodes_get g.nodes hnd j h]
  rfl

theorem class_setPartition (g : Graph) (n n' : String) (v : PyVal) :
    pyGet (attrsOf (setPartition g n v) n') "class" =
      pyGet (attrsOf g n') "class" := by
  by_cases he : n' = n
  · subst he
    rw [setPartition, attrsOf_setNodeAttr_self]
    by_cases hany : g.nodes.any (fun kv => kv.1 == n')
    · rw [if_pos hany]
      exact pyGet_dictSet_ne _ _ _ _ (by decide)
    · rw [if_neg hany]
      have hnone : g.nodes.find? (fun kv => kv.1 == n') = Option.none := by
        rw [List.find?_eq_none]
        intro x hx hp
        exact hany (List.any_eq_true.2 ⟨x, hx, hp⟩)
      unfold attrsOf
      rw [hnone]
      rfl
  · rw [setPartition, attrsOf_setNodeAttr_ne _ _ _ _ _ he]

theorem findIdx?_isSome_of_mem {a : Type} (p : a → Bool) :
    ∀ (l : List a) (i : Nat), (∃ x ∈ l, p x) →
      ∃ j0, List.findIdx? p l i = Option.some j0 := by
  intro l
  induction l with
  | nil =>
    rintro i ⟨x, hx, -⟩
    cases hx
  | cons b t ih =>
    rintro i ⟨x, hx, hp⟩
    rw [List.findIdx?_cons]
    by_cases hb : p b = true
    · exact ⟨i, by rw [if_pos hb]⟩
    · rcases List.mem_cons.1 hx with rfl | hx
      · exact absurd hp hb
      · obtain ⟨j0, hj0⟩ := ih (i + 1) ⟨x, hx, hp⟩
        exact ⟨j0, by rw [if_neg hb]; exact hj0⟩

theorem rcBuild_lt2 (m : Int) (hm : m < 2) :
    ∀ (l : List (String × List (String × PyVal))) (i : Nat)
      (acc : List (PyVal × Int)) (r : Rng),
    ∃ cm, rcBuild (Option.some m) i l acc r = Except.ok (cm, r) ∧
      ∀ c : PyVal, cm.find? (fun kv => kv.1 == c) =
        (acc.find? (fun kv => kv.1 == c)).or
          ((List.findIdx? (fun nd => pyGet nd.2 "class" == c) l i).map
            (fun j => (c, Int.ofNat j))) := by
  intro l
  induction l with
  | nil =>
    intro i acc r
    refine ⟨acc, rfl, fun c => ?_⟩
    simp [List.findIdx?]
  | cons nd rest ih =>
    intro i acc r
    have hd : decide (m < 2) = true := decide_eq_true hm
    obtain ⟨cm, hok, hfind⟩ := ih (i + 1)
      (if acc.any (fun kv => kv.1 == pyGet nd.2 "class") then acc
       else acc ++ [(pyGet nd.2 "class", (i : Int))]) r
    refine ⟨cm, ?_, ?_⟩
    · rw [rcBuild]
      simp only [pyLt, hd]
      exact hok
    · intro c
      rw [hfind c, List.findIdx?_cons]
      by_cases hc : pyGet nd.2 "class" = c
      · subst hc
        have hIf : (if (pyGet nd.2 "class" == pyGet nd.2 "class") = true
            then Option.some i
            else List.findIdx? (fun x => pyGet x.2 "class" == pyGet nd.2 "class")
              rest (i + 1)) = Option.some i := by simp
        rw [hIf]
        by_cases hacc : (acc.any fun kv => kv.1 == pyGet nd.2 "class") = true
        · have hifAcc :
              (if (acc.any fun kv => kv.1 == pyGet nd.2 "class") = true
               then acc else acc ++ [(pyGet nd.2 "class", (i : Int))]) = acc :=
            if_pos hacc
          rw [hifAcc]
          obtain ⟨kv, hkv⟩ := Option.isSome_iff_exists.1
            ((any_iff_findSome _ acc).1 hacc)
          rw [hkv]
          rfl
        · have hifAcc :
              (if (acc.any fun kv => kv.1 == pyGet nd.2 "class") = true
               then acc else acc ++ [(pyGet nd.2 "class", (i : Int))]) =
                acc ++ [(pyGet nd.2 "class", (i : Int))] :=
            if_neg hacc
          rw [hifAcc]
          have hnone : acc.find? (fun kv => kv.1 == pyGet nd.2 "class") =
              Option.none := by
            rw [List.find?_eq_none]
            intro x hx hp
            exact hacc (List.any_eq_true.2 ⟨x, hx, hp⟩)
          rw [List.find?_append, hnone]
          have hsingle : List.find? (fun kv => kv.1 == pyGet nd.2 "class")
              [(pyGet nd.2 "class", (i : Int))] =
                Option.some (pyGet nd.2 "class", (i : Int)) := by
            simp [List.find?]
          rw [hsingle]
          rfl
      · have hbe : (pyGet nd.2 "class" == c) = false :=
          beq_eq_false_iff_ne.mpr hc
        have hIf : (if (pyGet nd.2 "class" == c) = true then Option.some i
            else List.findIdx? (fun x => pyGet x.2 "class" == c) rest (i + 1)) =
            List.findIdx? (fun x => pyGet x.2 "class" == c) rest (i + 1) := by
          rw [hbe]
          simp
        rw [hIf]
        by_cases hacc : (acc.any fun kv => kv.1 == pyGet nd.2 "class") = true
        · have hifAcc :
              (if (acc.any fun kv => kv.1 == pyGet nd.2 "class") = true
               then acc else acc ++ [(pyGet nd.2 "class", (i : Int))]) = acc :=
            if_pos hacc
          rw [hifAcc]
        · have hifAcc :
              (if (acc.any fun kv => kv.1 == pyGet nd.2 "class") = true
               then acc else acc ++ [(pyGet nd.2 "class", (i : Int))]) =
                acc ++ [(pyGet nd.2 "class", (i : Int))] :=
            if_neg hacc
          rw [hifAcc, List.find?_append]
          have hsingle : List.find? (fun kv => kv.1 == c)
              [(pyGet nd.2 "class", (i : Int))] = Option.none := by
            simp [List.find?, hbe]
          rw [hsingle]
          cases acc.find? (fun kv => kv.1 == c) <;> rfl

theorem rcApply_spec (cm : List (PyVal × Int)) :
    ∀ (l : List String) (g : Graph), l.Nodup →
      (∀ x ∈ l, x ∈ nodeIds g) →
      nodeIds (rcApply cm l g) = nodeIds g ∧
      (∀ n, n ∉ l → getPartition (rcApply cm l g) n = getPartition g n) ∧
      (∀ n ∈ l, getPartition (rcApply cm l g) n =
        PyVal.int (((cm.find? (fun kv =>
          kv.1 == pyGet (attrsOf g n) "class")).map (fun kv => kv.2)).getD 0)) := by
  intro l
  induction l with
  | nil =>
    intro g _ _
    exact ⟨rfl, fun n _ => rfl, fun n hn => absurd hn (by simp)⟩
  | cons n rest ih =>
    intro g hnd hsub
    have hn : n ∈ nodeIds g := hsub n (List.mem_cons_self n rest)
    have hnr : n ∉ rest := (List.nodup_cons.1 hnd).1
    obtain ⟨hids, hpres, happ⟩ := ih
      (setPartition g n (PyVal.int (((cm.find? (fun kv =>
        kv.1 == pyGet (attrsOf g n) "class")).map (fun kv => kv.2)).getD 0)))
      (List.nodup_cons.1 hnd).2
      (fun x hx => by
        rw [nodeIds_setPartition]
        exact hsub x (List.mem_cons_of_mem n hx))
    have hstep : rcApply cm (n :: rest) g =
        rcApply cm rest (setPartition g n (PyVal.int (((cm.find? (fun kv =>
          kv.1 == pyGet (attrsOf g n) "class")).map (fun kv => kv.2)).getD 0))) :=
      rfl
    refine ⟨?_, ?_, ?_⟩
    · rw [hstep, hids, nodeIds_setPartition]
    · intro n' hn'
      have h1 : n' ∉ rest := fun h => hn' (List.mem_cons_of_mem n h)
      have h2 : n' ≠ n := fun h => hn' (h ▸ List.mem_cons_self n rest)
      rw [hstep, hpres n' h1, getPartition_setPartition_ne g n n' _ h2]
    · intro x hx
      rcases List.mem_cons.1 hx with rfl | hx
      · rw [hstep, hpres x hnr, getPartition_setPartition_self g x _ hn]
      · rw [hstep, happ x hx, class_setPartition g n x _]

/-- C5 counterexample: on a two-node graph whose nodes share class `"A"`,
`random_classes` with `max_part = 0 < 2` gives both nodes label `0`,
whereas `random_methods` with the same `max_part` gives them the distinct
labels `0` and `1` — so the strategy does not assign the labels
`random_methods` would. -/
theorem random_classes_fallback_counterexample :
    (assignRandomClasses exG5 (Option.some 0) 0).map
        (fun p => (getPartition p.1 "n0", getPartition p.1 "n1")) =
      Except.ok (PyVal.int 0, PyVal.int 0) ∧
    (assignRandomMethods exG5 (Option.some 0) 0).map
        (fun p => (getPartition p.1 "n0", getPartition p.1 "n1")) =
      Except.ok (PyVal.int 0, PyVal.int 1) ∧
    PyVal.int 0 ≠ PyVal.int 1 :=
  ⟨by decide, by decide, by decide⟩

/-- C5 amended: with `max_part < 2`, `random_classes` assigns every node
the index of the first node (in iteration order) sharing its class value —
it performs no `random_methods` call, and coincides with `random_methods`
only when class values are pairwise distinct. -/
theorem random_classes_lt2_amended (g : Graph) (m : Int) (r : Rng)
    (hm : m < 2) (hnd : (nodeIds g).Nodup) :
    ∃ g', assignRandomClasses g (Option.some m) r = Except.ok (g', r) ∧
      ∀ j (h : j < g.nodes.length),
        getPartition g' (g.nodes.get ⟨j, h⟩).1 =
          PyVal.int (Int.ofNat ((List.findIdx? (fun nd =>
            pyGet nd.2 "class" ==
              pyGet (g.nodes.get ⟨j, h⟩).2 "class") g.nodes 0).getD 0)) := by
  obtain ⟨cm, hok, hfind⟩ := rcBuild_lt2 m hm g.nodes 0 [] r
  obtain ⟨-, -, happ⟩ := rcApply_spec cm (nodeIds g) g hnd (fun x hx => hx)
  refine ⟨rcApply cm (nodeIds g) g, ?_, ?_⟩
  · rw [assignRandomClasses, hok]
    rfl
  · intro j h
    have hmem : (g.nodes.get ⟨j, h⟩).1 ∈ nodeIds g :=
      List.mem_map.2 ⟨g.nodes.get ⟨j, h⟩, List.get_mem g.nodes j h, rfl⟩
    have hcl : pyGet (attrsOf g (g.nodes.get ⟨j, h⟩).1) "class" =
        pyGet (g.nodes.get ⟨j, h⟩).2 "class" := by
      rw [attrsOf_get_of_nodup g hnd j h]
    rw [happ _ hmem, hcl, hfind]
    obtain ⟨j0, hj0⟩ := findIdx?_isSome_of_mem
      (fun nd => pyGet nd.2 "class" == pyGet (g.nodes.get ⟨j, h⟩).2 "class")
      g.nodes 0 ⟨g.nodes.get ⟨j, h⟩, List.get_mem g.nodes j h, by simp⟩
    rw [hj0]
    rfl

/-- C5 amended witness: on `exG5` both nodes (sharing class `"A"`) receive
label `0`, the index of the first node of that class. -/
theorem random_classes_lt2_amended_witness :
    ∃ g', assignRandomClasses exG5 (Option.some 0) 0 = Except.ok (g', 0) ∧
      getPartition g' "n0" = PyVal.int 0 ∧
      getPartition g' "n1" = PyVal.int 0 := by
  obtain ⟨g', hok, hidx⟩ :=
    random_classes_lt2_amended exG5 0 0 (by decide) (by decide)
  refine ⟨g', hok, ?_, ?_⟩
  · have := hidx 0 (by decide)
    simpa using this
  · have := hidx 1 (by decide)
    simpa using this


/-! Graph construction: `add_node` and the node-population fold. -/

theorem mapFst_keyUpdate {b : Type} (d : List (String × b)) (n : String)
    (f : String × b → String × b) :
    (d.map (fun kv => if kv.1 == n then (kv.1, (f kv).2) else kv)).map
      Prod.fst = d.map Prod.fst := by
  rw [List.map_map]
  apply List.map_congr_left
  intro kv _
  by_cases h : kv.1 = n <;> simp [h]

theorem addNode_error (g : Graph) (r : NodeRec)
    (h : r.fields.any (fun kv => kv.1 == "partition") = true) :
    addNode g r = Except.error "TypeError" := by
  rw [addNode, if_pos h]

theorem addNode_ok_inv (g : Graph) (r : NodeRec) (g1 : Graph)
    (hok : addNode g r = Except.ok g1) :
    ¬ r.fields.any (fun kv => kv.1 == "partition") = true := by
  intro h
  rw [addNode_error g r h] at hok
  cases hok

theorem addNode_of_noPartition (g : Graph) (r : NodeRec)
    (h : ¬ r.fields.any (fun kv => kv.1 == "partition") = true) :
    addNode g r = Except.ok
      (if g.nodes.any (fun kv => kv.1 == r.id) then
        { g with nodes := g.nodes.map (fun kv =>
          if kv.1 == r.id then (kv.1, dictUpdate kv.2
            (("partition", PyVal.none) :: ("id", PyVal.str r.id) :: r.fields))
          else kv) }
      else { g with nodes := g.nodes ++ [(r.id, dictUpdate []
        (("partition", PyVal.none) :: ("id", PyVal.str r.id) :: r.fields))] }) := by
  rw [addNode, if_neg h]
  by_cases ha : g.nodes.any (fun kv => kv.1 == r.id) = true
  · rw [if_pos ha, if_pos ha]
  · rw [if_neg ha, if_neg ha]

theorem addNode_nodeIds (g : Graph) (r : NodeRec) (g1 : Graph)
    (hok : addNode g r = Except.ok g1) :
    nodeIds g1 = if g.nodes.any (fun kv => kv.1 == r.id) then nodeIds g
      else nodeIds g ++ [r.id] := by
  have hnp := addNode_ok_inv g r g1 hok
  rw [addNode_of_noPartition g r hnp] at hok
  by_cases ha : g.nodes.any (fun kv => kv.1 == r.id) = true
  · rw [if_pos ha] at hok ⊢
    cases hok
    unfold nodeIds
    exact mapFst_keyUpdate g.nodes r.id
      (fun kv => (kv.1, dictUpdate kv.2
        (("partition", PyVal.none) :: ("id", PyVal.str r.id) :: r.fields)))
  · rw [if_neg ha] at hok ⊢
    cases hok
    unfold nodeIds
    simp

theorem addNode_attrs_self (g : Graph) (r : NodeRec) (g1 : Graph)
    (hok : addNode g r = Except.ok g1) :
    attrsOf g1 r.id =
      if g.nodes.any (fun kv => kv.1 == r.id) then
        dictUpdate (attrsOf g r.id)
          (("partition", PyVal.none) :: ("id", PyVal.str r.id) :: r.fields)
      else dictUpdate []
        (("partition", PyVal.none) :: ("id", PyVal.str r.id) :: r.fields) := by
  have hnp := addNode_ok_inv g r g1 hok
  rw [addNode_of_noPartition g r hnp] at hok
  by_cases ha : g.nodes.any (fun kv => kv.1 == r.id) = true
  · rw [if_pos ha] at hok ⊢
    cases hok
    unfold attrsOf
    simp only
    rw [find?_map_keyUpdate g.nodes r.id (fun kv => (kv.1, dictUpdate kv.2
      (("partition", PyVal.none) :: ("id", PyVal.str r.id) :: r.fields)))
      (fun kv h => h)]
    obtain ⟨a, hfina⟩ := Option.isSome_iff_exists.1
      ((any_iff_find?_isSome g.nodes r.id).1 ha)
    rw [hfina]
    rfl
  · rw [if_neg ha] at hok ⊢
    cases hok
    unfold attrsOf
    simp only
    have hnone : g.nodes.find? (fun kv => kv.1 == r.id) = Option.none := by
      rw [List.find?_eq_none]
      intro x hx hp
      exact ha (List.any_eq_true.2 ⟨x, hx, hp⟩)
    rw [List.find?_append, hnone]
    simp [List.find?]

theorem addNode_attrs_ne (g : Graph) (r : NodeRec) (g1 : Graph) (id : String)
    (hok : addNode g r = Except.ok g1) (hne : id ≠ r.id) :
    attrsOf g1 id = attrsOf g id := by
  have hnp := addNode_ok_inv g r g1 hok
  rw [addNode_of_noPartition g r hnp] at hok
  by_cases ha : g.nodes.any (fun kv => kv.1 == r.id) = true
  · rw [if_pos ha] at hok
    cases hok
    unfold attrsOf
    simp only
    rw [find?_map_keyUpdate_ne g.nodes r.id id (fun kv => (kv.1, dictUpdate kv.2
      (("partition", PyVal.none) :: ("id", PyVal.str r.id) :: r.fields)))
      (fun kv h => h) hne]
  · rw [if_neg ha] at hok
    cases hok
    unfold attrsOf
    simp only
    rw [List.find?_append]
    have hsingle : List.find? (fun kv => kv.1 == id)
        [(r.id, dictUpdate [] (("partition", PyVal.none) ::
          ("id", PyVal.str r.id) :: r.fields))] = Option.none := by
      simp [List.find?, beq_eq_false_iff_ne.mpr (fun e => hne e.symm)]
    rw [hsingle]
    cases g.nodes.find? (fun kv => kv.1 == id) <;> rfl

theorem pyGet_kwargs_partition (d : List (String × PyVal)) (r : NodeRec)
    (hnp : ¬ r.fields.any (fun kv => kv.1 == "partition") = true) :
    pyGet (dictUpdate d (("partition", PyVal.none) ::
      ("id", PyVal.str r.id) :: r.fields)) "partition" = PyVal.none := by
  have hstep : dictUpdate d (("partition", PyVal.none) ::
      ("id", PyVal.str r.id) :: r.fields) =
      dictUpdate (dictSet d "partition" PyVal.none)
        (("id", PyVal.str r.id) :: r.fields) := rfl
  rw [hstep, pyGet_dictUpdate_absent]
  · exact pyGet_dictSet_self d "partition" PyVal.none
  · intro kv hkv
    rcases List.mem_cons.1 hkv with rfl | hkv
    · exact (show ("id" : String) ≠ "partition" by decide)
    · intro he
      exact hnp (List.any_eq_true.2 ⟨kv, hkv, beq_iff_eq.mpr he⟩)

theorem addNode_partition_none (g : Graph) (r : NodeRec) (g1 : Graph)
    (hok : addNode g r = Except.ok g1)
    (hinv : ∀ id ∈ nodeIds g, getPartition g id = PyVal.none) :
    ∀ id ∈ nodeIds g1, getPartition g1 id = PyVal.none := by
  intro id hid
  have hnp := addNode_ok_inv g r g1 hok
  by_cases he : id = r.id
  · subst he
    unfold getPartition
    rw [addNode_attrs_self g r g1 hok]
    by_cases ha : g.nodes.any (fun kv => kv.1 == r.id) = true
    · rw [if_pos ha]
      exact pyGet_kwargs_partition _ r hnp
    · rw [if_neg ha]
      exact pyGet_kwargs_partition _ r hnp
  · rw [addNode_nodeIds g r g1 hok] at hid
    unfold getPartition
    rw [addNode_attrs_ne g r g1 id hok he]
    apply hinv
    by_cases ha : g.nodes.any (fun kv => kv.1 == r.id) = true
    · rw [if_pos ha] at hid
      exact hid
    · rw [if_neg ha] at hid
      rcases List.mem_append.1 hid with h | h
      · exact h
      · exact absurd (List.mem_singleton.1 h) he

theorem foldAdd_error_of_exists :
    ∀ (rs : List NodeRec) (g : Graph),
    (∃ r ∈ rs, r.fields.any (fun kv => kv.1 == "partition") = true) →
    rs.foldlM addNode g = Except.error "TypeError" := by
  intro rs
  induction rs with
  | nil =>
    rintro g ⟨r, hr, -⟩
    cases hr
  | cons a rest ih =>
    rintro g ⟨r, hr, hp⟩
    rw [List.foldlM_cons]
    by_cases ha : a.fields.any (fun kv => kv.1 == "partition") = true
    · rw [addNode_error g a ha]
      rfl
    · rw [addNode_of_noPartition g a ha]
      show rest.foldlM addNode _ = Except.error "TypeError"
      apply ih
      rcases List.mem_cons.1 hr with rfl | hr
      · exact absurd hp ha
      · exact ⟨r, hr, hp⟩

theorem foldAdd_ok_inv (rs : List NodeRec) (a : NodeRec) (g : Graph)
    (g' : Graph) (hok : (a :: rs).foldlM addNode g = Except.ok g') :
    ∃ g1, addNode g a = Except.ok g1 ∧ rs.foldlM addNode g1 = Except.ok g' := by
  rw [List.foldlM_cons] at hok
  cases haddr : addNode g a with
  | error e =>
    rw [haddr] at hok
    cases hok
  | ok g1 =>
    rw [haddr] at hok
    exact ⟨g1, rfl, hok⟩

theorem foldAdd_partition_none :
    ∀ (rs : List NodeRec) (g g' : Graph),
    rs.foldlM addNode g = Except.ok g' →
    (∀ id ∈ nodeIds g, getPartition g id = PyVal.none) →
    ∀ id ∈ nodeIds g', getPartition g' id = PyVal.none := by
  intro rs
  induction rs with
  | nil =>
    intro g g' hok hinv
    cases hok
    exact hinv
  | cons a rest ih =>
    intro g g' hok hinv
    obtain ⟨g1, h1, h2⟩ := foldAdd_ok_inv rest a g g' hok
    exact ih g1 g' h2 (addNode_partition_none g a g1 h1 hinv)

theorem foldAdd_nodup_mem :
    ∀ (rs : List NodeRec) (g g' : Graph),
    rs.foldlM addNode g = Except.ok g' → (nodeIds g).Nodup →
    (nodeIds g').Nodup ∧
      ∀ id, id ∈ nodeIds g' ↔ id ∈ nodeIds g ∨ id ∈ rs.map NodeRec.id := by
  intro rs
  induction rs with
  | nil =>
    intro g g' hok hnd
    cases hok
    refine ⟨hnd, ?_⟩
    intro x
    simp
  | cons a rest ih =>
    intro g g' hok hnd
    obtain ⟨g1, h1, h2⟩ := foldAdd_ok_inv rest a g g' hok
    have hids := addNode_nodeIds g a g1 h1
    by_cases ha : g.nodes.any (fun kv => kv.1 == a.id) = true
    · rw [if_pos ha] at hids
      obtain ⟨hnd', hmem⟩ := ih g1 g' h2 (hids ▸ hnd)
      refine ⟨hnd', ?_⟩
      intro x
      rw [hmem x, hids]
      constructor
      · rintro (h | h)
        · exact Or.inl h
        · exact Or.inr (List.mem_cons_of_mem _ h)
      · rintro (h | h)
        · exact Or.inl h
        · rcases List.mem_cons.1 h with rfl | h
          · exact Or.inl ((mem_nodeIds_iff_any g a.id).2 ha)
          · exact Or.inr h
    · rw [if_neg ha] at hids
      have hnotin : a.id ∉ nodeIds g := fun h =>
        ha ((mem_nodeIds_iff_any g a.id).1 h)
      have hnd1 : (nodeIds g1).Nodup := by
        rw [hids]
        exact List.Nodup.append hnd (List.nodup_singleton a.id)
          (by simpa [List.disjoint_singleton] using hnotin)
      obtain ⟨hnd', hmem⟩ := ih g1 g' h2 hnd1
      refine ⟨hnd', ?_⟩
      intro x
      rw [hmem x, hids]
      constructor
      · rintro (h | h)
        · rcases List.mem_append.1 h with h | h
          · exact Or.inl h
          · exact Or.inr (List.mem_singleton.1 h ▸ List.mem_cons_self a.id _)
        · exact Or.inr (List.mem_cons_of_mem _ h)
      · rintro (h | h)
        · exact Or.inl (List.mem_append.2 (Or.inl h))
        · rcases List.mem_cons.1 h with rfl | h
          · exact Or.inl (List.mem_append.2 (Or.inr (List.mem_singleton.2 rfl)))
          · exact Or.inr h

theorem foldAdd_attrs_preserved :
    ∀ (rs : List NodeRec) (g g' : Graph) (id : String),
    rs.foldlM addNode g = Except.ok g' → (∀ r ∈ rs, r.id ≠ id) →
    attrsOf g' id = attrsOf g id := by
  intro rs
  induction rs with
  | nil =>
    intro g g' id hok _
    cases hok
    rfl
  | cons a rest ih =>
    intro g g' id hok hne
    obtain ⟨g1, h1, h2⟩ := foldAdd_ok_inv rest a g g' hok
    rw [ih g1 g' id h2 (fun r hr => hne r (List.mem_cons_of_mem a hr)),
      addNode_attrs_ne g a g1 id h1
        (fun e => hne a (List.mem_cons_self a rest) e.symm)]

theorem foldAdd_fresh_attrs :
    ∀ (rs : List NodeRec) (g g' : Graph),
    rs.foldlM addNode g = Except.ok g' → (rs.map NodeRec.id).Nodup →
    (∀ r ∈ rs, r.id ∉ nodeIds g) →
    ∀ r ∈ rs, attrsOf g' r.id = dictUpdate []
      (("partition", PyVal.none) :: ("id", PyVal.str r.id) :: r.fields) := by
  intro rs
  induction rs with
  | nil =>
    intro g g' _ _ _ r hr
    cases hr
  | cons a rest ih =>
    intro g g' hok hnd hfresh r hr
    obtain ⟨g1, h1, h2⟩ := foldAdd_ok_inv rest a g g' hok
    have ha : ¬ g.nodes.any (fun kv => kv.1 == a.id) = true := fun h =>
      hfresh a (List.mem_cons_self a rest) ((mem_nodeIds_iff_any g a.id).2 h)
    have hids1 : nodeIds g1 = nodeIds g ++ [a.id] := by
      have := addNode_nodeIds g a g1 h1
      rwa [if_neg ha] at this
    rcases List.mem_cons.1 hr with rfl | hr
    · have hrestne : ∀ s ∈ rest, s.id ≠ r.id := by
        intro s hs e
        exact (List.nodup_cons.1 hnd).1
          (e ▸ List.mem_map.2 ⟨s, hs, rfl⟩)
      rw [foldAdd_attrs_preserved rest g1 g' r.id h2 hrestne]
      have := addNode_attrs_self g r g1 h1
      rwa [if_neg ha] at this
    · apply ih g1 g' h2 (List.nodup_cons.1 hnd).2 _ r hr
      intro s hs
      rw [hids1]
      intro hmem
      rcases List.mem_append.1 hmem with h | h
      · exact hfresh s (List.mem_cons_of_mem a hs) h
      · exact (List.nodup_cons.1 hnd).1
          (List.mem_singleton.1 h ▸ List.mem_map.2 ⟨s, hs, rfl⟩)


/-! The `groupby` heads: membership and first-record identification. -/

theorem mem_ids_groupbyHeadsGo_sub :
    ∀ (l : List NodeRec) (last : Option String) (id : String),
    id ∈ (groupbyHeadsGo last l).map NodeRec.id → id ∈ l.map NodeRec.id := by
  intro l
  induction l with
  | nil => intro last id h; cases h
  | cons r rs ih =>
    intro last id h
    rw [groupbyHeadsGo] at h
    by_cases hl : (last == Option.some r.id) = true
    · rw [if_pos hl] at h
      exact List.mem_cons_of_mem _ (ih last id h)
    · rw [if_neg hl] at h
      rcases List.mem_cons.1 h with he | h
      · exact List.mem_cons.2 (Or.inl he)
      · exact List.mem_cons_of_mem _ (ih (Option.some r.id) id h)

theorem mem_ids_groupbyHeadsGo_sup :
    ∀ (l : List NodeRec) (last : Option String) (id : String),
    id ∈ l.map NodeRec.id → Option.some id ≠ last →
    id ∈ (groupbyHeadsGo last l).map NodeRec.id := by
  intro l
  induction l with
  | nil => intro last id h _; cases h
  | cons r rs ih =>
    intro last id h hne
    rw [groupbyHeadsGo]
    by_cases hl : (last == Option.some r.id) = true
    · rw [if_pos hl]
      have hlast : last = Option.some r.id := beq_iff_eq.mp hl
      rcases List.mem_cons.1 h with he | h
      · exact absurd (hlast ▸ (he ▸ rfl : Option.some id = Option.some r.id))
          hne
      · exact ih last id h hne
    · rw [if_neg hl]
      rcases List.mem_cons.1 h with he | h
      · exact List.mem_cons.2 (Or.inl he)
      · by_cases hid : id = r.id
        · exact List.mem_cons.2 (Or.inl hid)
        · exact List.mem_cons_of_mem _
            (ih (Option.some r.id) id h (by simpa using hid))

theorem mem_ids_groupbyHeads (recs : List NodeRec) (id : String) :
    id ∈ (groupbyHeads recs).map NodeRec.id ↔ id ∈ recs.map NodeRec.id := by
  constructor
  · exact mem_ids_groupbyHeadsGo_sub recs Option.none id
  · intro h
    exact mem_ids_groupbyHeadsGo_sup recs Option.none id h (by simp)

theorem groupbyHeadsGo_some_eq :
    ∀ (l : List NodeRec) (x : String),
    groupbyHeadsGo (Option.some x) l =
      groupbyHeads (l.dropWhile (fun s => s.id == x)) := by
  intro l
  induction l with
  | nil => intro x; rfl
  | cons s ss ih =>
    intro x
    by_cases he : s.id = x
    · have h1 : (Option.some x == Option.some s.id) = true := by simp [he]
      have h2 : (s.id == x) = true := by simp [he]
      rw [groupbyHeadsGo, if_pos h1,
        @List.dropWhile_cons_of_pos _ (fun s => s.id == x) s ss h2]
      exact ih x
    · have h1 : (Option.some x == Option.some s.id) = false := by
        simp
        exact fun e => he e.symm
      have h2 : (s.id == x) = false := by simp [he]
      rw [groupbyHeadsGo, if_neg (by simp [h1]),
        @List.dropWhile_cons_of_neg _ (fun s => s.id == x) s ss (by simp [h2])]
      rw [groupbyHeads, groupbyHeadsGo, if_neg (by simp)]

theorem groupbyHeads_cons (r : NodeRec) (rs : List NodeRec) :
    groupbyHeads (r :: rs) =
      r :: groupbyHeads (rs.dropWhile (fun s => s.id == r.id)) := by
  rw [groupbyHeads, groupbyHeadsGo, if_neg (by simp),
    groupbyHeadsGo_some_eq]

theorem find?_dropWhile {a : Type} (p q : a → Bool) :
    ∀ l : List a, (∀ x, q x = true → p x = false) →
    (l.dropWhile q).find? p = l.find? p := by
  intro l
  induction l with
  | nil => intro _; rfl
  | cons b bs ih =>
    intro h
    by_cases hq : q b = true
    · rw [List.dropWhile_cons_of_pos hq,
        List.find?_cons_of_neg _ (by simp [h b hq]), ih h]
    · rw [List.dropWhile_cons_of_neg (by simpa using hq)]

theorem heads_first : ∀ (recs : List NodeRec),
    ((groupbyHeads recs).map NodeRec.id).Nodup →
    ∀ r ∈ groupbyHeads recs,
      recs.find? (fun s => s.id == r.id) = Option.some r
  | [] => by
    intro _ r hr
    cases hr
  | rec :: rs => by
    intro hnd r hr
    rw [groupbyHeads_cons] at hnd hr
    rcases List.mem_cons.1 hr with rfl | hr
    · exact List.find?_cons_of_pos _ (by simp)
    · have hne : r.id ≠ rec.id := by
        intro e
        rw [List.map_cons] at hnd
        have hmm : r.id ∈ List.map NodeRec.id
            (groupbyHeads (rs.dropWhile (fun s => s.id == rec.id))) :=
          List.mem_map.2 ⟨r, hr, rfl⟩
        rw [e] at hmm
        exact (List.nodup_cons.1 hnd).1 hmm
      rw [List.find?_cons_of_neg _ (by simpa using Ne.symm hne)]
      rw [← find?_dropWhile (fun s => s.id == r.id) (fun s => s.id == rec.id)
        rs (fun x hx => by
          have hx' : x.id = rec.id := by simpa using hx
          have hxx : ¬ x.id = r.id := by rw [hx']; exact Ne.symm hne
          simpa using hxx)]
      exact heads_first (rs.dropWhile (fun s => s.id == rec.id))
        (by rw [List.map_cons] at hnd; exact (List.nodup_cons.1 hnd).2) r hr
  termination_by recs => recs.length
  decreasing_by
    simp only [List.length_cons]
    have h := (@List.dropWhile_sublist _ rs
      (fun s => s.id == rec.id)).length_le
    omega

/-- C3 counterexample: for the input `exRecsDup`, whose records with id
`"a"` are not adjacent, the constructed node `"a"` carries the attribute
value of the third record (`v = 2`), not of the first record with that id
(`v = 1`): `itertools.groupby` groups only consecutive records, and the
second `add_node` call for `"a"` overwrites the attributes. -/
theorem json2nx_duplicate_counterexample :
    (populateNodes exRecsDup ⟨[], []⟩).map
        (fun g => pyGet (attrsOf g "a") "v") = Except.ok (PyVal.int 2) ∧
    exRecsDup.find? (fun s => s.id == "a") =
      Option.some ⟨"a", [("v", PyVal.int 1)]⟩ ∧
    PyVal.int 2 ≠ PyVal.int 1 :=
  ⟨by decide, by decide, by decide⟩

/-- C3 amended: construction always yields exactly one node per distinct
input id (node ids are distinct, and an id is present exactly when some
record carries it); and when all records sharing an id are adjacent (the
`groupby` heads have pairwise distinct ids), each such head is the first
record with its id and its node's attributes are that first record's
keyword dictionary. For non-adjacent duplicates a later run's leading
record overwrites the attributes. -/
theorem json2nx_duplicate_amended (recs : List NodeRec) (g : Graph)
    (hok : populateNodes recs ⟨[], []⟩ = Except.ok g) :
    ((nodeIds g).Nodup ∧
      ∀ id, id ∈ nodeIds g ↔ id ∈ recs.map NodeRec.id)
    ∧ (((groupbyHeads recs).map NodeRec.id).Nodup →
      ∀ r ∈ groupbyHeads recs,
        recs.find? (fun s => s.id == r.id) = Option.some r ∧
        attrsOf g r.id = dictUpdate []
          (("partition", PyVal.none) :: ("id", PyVal.str r.id) :: r.fields)) := by
  obtain ⟨hnd, hmem⟩ := foldAdd_nodup_mem (groupbyHeads recs) ⟨[], []⟩ g hok
    (by simp [nodeIds])
  refine ⟨⟨hnd, ?_⟩, ?_⟩
  · intro id
    rw [hmem id, ← mem_ids_groupbyHeads recs id]
    simp [nodeIds]
  · intro hndh r hr
    refine ⟨heads_first recs hndh r hr, ?_⟩
    exact foldAdd_fresh_attrs (groupbyHeads recs) ⟨[], []⟩ g hok hndh
      (fun s _ hs => by simp [nodeIds] at hs) r hr

/-- C3 amended witness: for `exRecsAdj` (adjacent duplicate `"a"` records)
the node ids are distinct and node `"a"` keeps the first record's `v = 1`. -/
theorem json2nx_duplicate_amended_witness :
    ∃ g, populateNodes exRecsAdj ⟨[], []⟩ = Except.ok g ∧
      (nodeIds g).Nodup ∧ pyGet (attrsOf g "a") "v" = PyVal.int 1 := by
  obtain ⟨g, hg⟩ : ∃ g, populateNodes exRecsAdj ⟨[], []⟩ = Except.ok g :=
    ⟨_, rfl⟩
  have h := json2nx_duplicate_amended exRecsAdj g hg
  obtain ⟨-, hattrs⟩ := h.2 (by decide) ⟨"a", [("v", PyVal.int 1)]⟩ (by decide)
  refine ⟨g, hg, h.1.1, ?_⟩
  rw [hattrs]
  decide

/-- C9 counterexample: a record whose mapping already carries a `partition`
key makes construction raise `TypeError` (duplicate keyword argument in
`add_node(node_id, partition=None, **node_attr)`) instead of producing a
node with `partition = None`. -/
theorem construction_partition_key_counterexample :
    populateNodes [exRec9] ⟨[], []⟩ = Except.error "TypeError" ∧
    exRec9.fields.find? (fun kv => kv.1 == "partition") =
      Option.some ("partition", PyVal.int 5) :=
  ⟨by decide, by decide⟩

/-- C9 amended: for every input whose surviving records do not carry a
`partition` key, construction succeeds and forces every node's partition
attribute to `None`; a `groupby`-head record carrying a `partition` key
makes the `add_node` call raise `TypeError` instead. -/
theorem construction_partition_unset_amended :
    (∀ (recs : List NodeRec) (g : Graph),
      populateNodes recs ⟨[], []⟩ = Except.ok g →
      ∀ id ∈ nodeIds g, getPartition g id = PyVal.none)
    ∧ ∀ recs : List NodeRec,
      (∃ r ∈ groupbyHeads recs,
        r.fields.any (fun kv => kv.1 == "partition") = true) →
      populateNodes recs ⟨[], []⟩ = Except.error "TypeError" := by
  constructor
  · intro recs g hok
    exact foldAdd_partition_none (groupbyHeads recs) ⟨[], []⟩ g hok
      (fun id hid => by simp [nodeIds] at hid)
  · intro recs hex
    exact foldAdd_error_of_exists (groupbyHeads recs) ⟨[], []⟩ hex

/-- C9 amended witness: on `exRecsAdj` (no `partition` keys) every
constructed node's partition is `None`. -/
theorem construction_partition_unset_amended_witness :
    ∃ g, populateNodes exRecsAdj ⟨[], []⟩ = Except.ok g ∧
      getPartition g "a" = PyVal.none ∧ getPartition g "b" = PyVal.none := by
  obtain ⟨g, hg⟩ : ∃ g, populateNodes exRecsAdj ⟨[], []⟩ = Except.ok g :=
    ⟨_, rfl⟩
  obtain ⟨-, hmem⟩ := foldAdd_nodup_mem (groupbyHeads exRecsAdj) ⟨[], []⟩ g hg
    (by simp [nodeIds])
  refine ⟨g, hg, ?_, ?_⟩
  · exact construction_partition_unset_amended.1 exRecsAdj g hg "a"
      ((hmem "a").2 (Or.inr (by decide)))
  · exact construction_partition_unset_amended.1 exRecsAdj g hg "b"
      ((hmem "b").2 (Or.inr (by decide)))


/-! `max_part = None`: the comparison against 2 raises `TypeError`. -/

theorem rmGo_none_error (i : Nat) (n : String) (rest : List String)
    (g : Graph) (r : Rng) :
    rmGo Option.none i (n :: rest) g r = Except.error "TypeError" := rfl

theorem assignRandomMethods_none_error (g : Graph) (r : Rng)
    (hne : g.nodes ≠ []) :
    assignRandomMethods g Option.none r = Except.error "TypeError" := by
  rw [assignRandomMethods]
  cases hn : g.nodes with
  | nil => exact absurd hn hne
  | cons a t =>
    rw [show nodeIds g = a.1 :: t.map Prod.fst by rw [nodeIds, hn]; rfl]
    rfl

theorem assignRandomClasses_none_error (g : Graph) (r : Rng)
    (hne : g.nodes ≠ []) :
    assignRandomClasses g Option.none r = Except.error "TypeError" := by
  rw [assignRandomClasses]
  cases hn : g.nodes with
  | nil => exact absurd hn hne
  | cons a t => rfl

theorem pnTry_none_error (g : Graph) (r : Rng) :
    pnTry g Option.none r = Except.error "TypeError" := rfl

theorem assignPackageNames_none_error (g : Graph) (r : Rng)
    (hne : g.nodes ≠ []) :
    assignPackageNames g Option.none r = Except.error "TypeError" := by
  rw [assignPackageNames, pnTry_none_error]
  exact assignRandomMethods_none_error g r hne

theorem afGo_none_error (cpm : List (PyVal × PyVal)) :
    ∀ (l : List String) (g : Graph) (i : Nat) (r : Rng),
    (∃ n ∈ l, cpm.find? (fun kv => kv.1 == pyGet (attrsOf g n) "class") =
      Option.none) →
    afGo Option.none cpm i l g r = Except.error "TypeError" := by
  intro l
  induction l with
  | nil =>
    rintro g i r ⟨n, hn, -⟩
    cases hn
  | cons n rest ih =>
    rintro g i r ⟨n', hn', hmiss⟩
    rw [afGo]
    cases hfind : cpm.find? (fun kv => kv.1 == pyGet (attrsOf g n) "class") with
    | none => rfl
    | some kv =>
      show afGo Option.none cpm (i + 1) rest (setPartition g n kv.2) r =
        Except.error "TypeError"
      apply ih
      rcases List.mem_cons.1 hn' with rfl | hn'
      · rw [hfind] at hmiss
        cases hmiss
      · refine ⟨n', hn', ?_⟩
        have hcl : pyGet (attrsOf (setPartition g n kv.2) n') "class" =
            pyGet (attrsOf g n') "class" := class_setPartition g n n' kv.2
        rw [hcl]
        exact hmiss

theorem assignViaFile_none_error (g : Graph) (r : Rng)
    (cpm : List (PyVal × PyVal))
    (hmiss : ∃ n ∈ nodeIds g,
      cpm.find? (fun kv => kv.1 == pyGet (attrsOf g n) "class") = Option.none) :
    assignViaFile g Option.none (Option.some cpm) r =
      Except.error "TypeError" := by
  rw [assignViaFile]
  exact afGo_none_error cpm (nodeIds g) g 0 r hmiss

theorem cargoExecute_seed_error (doc : SDGDoc) (g : Graph) (s : String)
    (mp : Option Int) (lf : Option (List (PyVal × PyVal))) (fuel : Nat)
    (r : Rng) (e : String)
    (h : assignInitLabels g s mp lf r = Except.error e) :
    cargoExecute doc g s mp lf fuel r = Except.error e := by
  rw [cargoExecute, h]
  rfl

/-- C10: on a non-empty graph, `execute` with the declared default
`max_part = None` raises `TypeError` under `random_methods`,
`random_classes` and `package_names` (the comparison `max_part < 2`, or the
fallback reached through the bare `except`, compares `None` with an
integer), and under `file` whenever some node's class is missing from the
mapping; omitting `max_part` is not a way to request the unbounded case. -/
theorem execute_none_typeerror (doc : SDGDoc) (g : Graph) (fuel : Nat)
    (r : Rng) (hne : g.nodes ≠ []) :
    (∀ lf, cargoExecute doc g "random_methods" Option.none lf fuel r =
      Except.error "TypeError")
    ∧ (∀ lf, cargoExecute doc g "random_classes" Option.none lf fuel r =
      Except.error "TypeError")
    ∧ (∀ lf, cargoExecute doc g "package_names" Option.none lf fuel r =
      Except.error "TypeError")
    ∧ ∀ cpm : List (PyVal × PyVal),
      (∃ n ∈ nodeIds g, cpm.find? (fun kv =>
        kv.1 == pyGet (attrsOf g n) "class") = Option.none) →
      cargoExecute doc g "file" Option.none (Option.some cpm) fuel r =
        Except.error "TypeError" := by
  refine ⟨?_, ?_, ?_, ?_⟩
  · intro lf
    exact cargoExecute_seed_error doc g _ _ lf fuel r _
      (assignRandomMethods_none_error g r hne)
  · intro lf
    exact cargoExecute_seed_error doc g _ _ lf fuel r _
      (assignRandomClasses_none_error g r hne)
  · intro lf
    exact cargoExecute_seed_error doc g _ _ lf fuel r _
      (assignPackageNames_none_error g r hne)
  · intro cpm hmiss
    exact cargoExecute_seed_error doc g _ _ _ fuel r _
      (assignViaFile_none_error g r cpm hmiss)

/-- C10 witness: on the concrete two-node graph `exG5` every strategy
raises `TypeError` with `max_part = None`; the labels file `exMap10` lacks
class `"A"`. -/
theorem execute_none_typeerror_witness :
    cargoExecute ⟨[], []⟩ exG5 "random_methods" Option.none Option.none 1 0 =
      Except.error "TypeError" ∧
    cargoExecute ⟨[], []⟩ exG5 "package_names" Option.none Option.none 1 0 =
      Except.error "TypeError" ∧
    cargoExecute ⟨[], []⟩ exG5 "file" Option.none (Option.some exMap10) 1 0 =
      Except.error "TypeError" := by
  have h := execute_none_typeerror ⟨[], []⟩ exG5 1 0 (by decide)
  exact ⟨h.1 Option.none, h.2.2.1 Option.none,
    h.2.2.2 exMap10 ⟨"n0", by decide, by decide⟩⟩

/-! Totality of package_names seeding for integer `max_part`. -/

theorem rmGo_total (m : Int) :
    ∀ (l : List String) (i : Nat) (g : Graph) (r : Rng),
    ∃ out, rmGo (Option.some m) i l g r = Except.ok out := by
  intro l
  induction l with
  | nil => intro i g r; exact ⟨(g, r), rfl⟩
  | cons n rest ih =>
    intro i g r
    by_cases hm : m < 2
    · obtain ⟨out, hout⟩ := ih (i + 1) (setPartition g n (PyVal.int i)) r
      refine ⟨out, ?_⟩
      rw [rmGo]
      simp only [pyLt, decide_eq_true hm]
      exact hout
    · obtain ⟨out, hout⟩ := ih (i + 1)
        (setPartition g n (PyVal.int (randint 1 m r).1)) (randint 1 m r).2
      refine ⟨out, ?_⟩
      rw [rmGo]
      simp only [pyLt, decide_eq_false hm]
      exact hout

theorem assignRandomMethods_total (g : Graph) (m : Int) (r : Rng) :
    ∃ out, assignRandomMethods g (Option.some m) r = Except.ok out :=
  rmGo_total m (nodeIds g) 0 g r

theorem pnTry_lt (g : Graph) (m : Int) (r : Rng)
    (h : ((pdGo (nodeIds g) []).length : Int) < m) :
    pnTry g (Option.some m) r = assignRandomMethods g (Option.some m) r := by
  rw [pnTry]
  simp only [pyLtI, decide_eq_true h]
  rfl

/-- C6 counterexample: with the declared default `max_part = None` and a
non-empty graph, `package_names` does surface an error — the bare `except`
catches the first `TypeError`, but the `random_methods` fallback then
raises `TypeError` itself. -/
theorem package_names_none_error_counterexample :
    assignPackageNames exG5 Option.none 0 = Except.error "TypeError" ∧
    exG5.nodes ≠ [] :=
  ⟨by decide, by decide⟩

/-- C6 amended: with an integer `max_part` the `package_names` procedure
never surfaces an error (any failure inside the `try` block is replaced by
a full `random_methods` assignment, which cannot fail for integer
`max_part`), and when the number of distinct packages is below `max_part`
it returns exactly the `random_methods` assignment; with `max_part = None`
the fallback itself raises on a non-empty graph. -/
theorem package_names_total_amended (g : Graph) (m : Int) (r : Rng) :
    (∃ out, assignPackageNames g (Option.some m) r = Except.ok out)
    ∧ (((pdGo (nodeIds g) []).length : Int) < m →
      assignPackageNames g (Option.some m) r =
        assignRandomMethods g (Option.some m) r) := by
  constructor
  · cases htry : pnTry g (Option.some m) r with
    | ok res =>
      refine ⟨res, ?_⟩
      rw [assignPackageNames, htry]
    | error e =>
      obtain ⟨out, hout⟩ := assignRandomMethods_total g m r
      refine ⟨out, ?_⟩
      rw [assignPackageNames, htry]
      exact hout
  · intro hlen
    obtain ⟨out, hout⟩ := assignRandomMethods_total g m r
    rw [assignPackageNames, pnTry_lt g m r hlen, hout]

/-- C6 amended witness: on `exG5` (one distinct package, fewer than
`max_part = 5`) `package_names` succeeds and equals the `random_methods`
assignment. -/
theorem package_names_total_amended_witness :
    assignPackageNames exG5 (Option.some 5) 0 =
      assignRandomMethods exG5 (Option.some 5) 0 ∧
    ∃ out, assignPackageNames exG5 (Option.some 5) 0 = Except.ok out := by
  have h := package_names_total_amended exG5 5 0
  exact ⟨h.2 (by decide), h.1⟩

/-- C8: a complete run — construction, seeding, propagation, assembly — is
a pure function of the input document and the arguments: the ambient state
of the global random generator is irrelevant, because `Cargo.__init__`
reseeds the single generator with the fixed constant `42`, and every draw
(seed draws and per-pass shuffles) comes from that one source. -/
theorem cargo_run_deterministic (doc : SDGDoc) (initLabels : String)
    (mp : Option Int) (lf : Option (List (PyVal × PyVal))) (fuel : Nat)
    (r1 r2 : Rng) :
    cargoRun doc initLabels mp lf fuel r1 =
      cargoRun doc initLabels mp lf fuel r2 := rfl


/-! The package_names hierarchical assignment (C4). -/

theorem fmod_self_of_lt (c n : Int) (h0 : 0 ≤ c) (h1 : c < n) :
    Int.fmod c n = c := by
  rw [Int.fmod_eq_emod c (le_of_lt (lt_of_le_of_lt h0 h1))]
  exact Int.emod_eq_of_lt h0 h1

theorem emod_succ (k : Nat) (n : Int) (hn : 0 < n) :
    ((k : Int) + 1) % n =
      if (k : Int) % n + 1 ≥ n then 0 else (k : Int) % n + 1 := by
  have hdecomp : (k : Int) + 1 = ((k : Int) % n + 1) + n * ((k : Int) / n) := by
    have h := Int.emod_add_ediv (k : Int) n
    omega
  rw [hdecomp, Int.add_mul_emod_self_left]
  have hmemb : 0 ≤ (k : Int) % n := Int.emod_nonneg _ (by omega)
  have hmlt : (k : Int) % n < n := Int.emod_lt_of_pos _ hn
  by_cases hc : (k : Int) % n + 1 ≥ n
  · rw [if_pos hc]
    have he : (k : Int) % n + 1 = n := by omega
    rw [he, Int.emod_self]
  · rw [if_neg hc]
    exact Int.emod_eq_of_lt (by omega) (by omega)

theorem bumpCounter_eq (m : Int) (k : Nat) (hm : 2 ≤ m) :
    bumpCounter ((k : Int) % (m - 1)) m = (((k + 1 : Nat) : Int)) % (m - 1) := by
  have hcast : (((k + 1 : Nat)) : Int) = (k : Int) + 1 := by push_cast; ring
  rw [bumpCounter, hcast, emod_succ k (m - 1) (by omega)]

theorem pnLoop_spec (m pivot : Int) (hm : 2 ≤ m) :
    ∀ (l : List (String × Nat)) (pkgs : List (String × Int)) (k : Nat),
    ∃ c', pnLoop m pivot l pkgs ((k : Int) % (m - 1)) =
      Except.ok (pnSpecLoop m pivot l pkgs k, c') := by
  intro l
  induction l with
  | nil => intro pkgs k; exact ⟨(k : Int) % (m - 1), rfl⟩
  | cons pk rest ih =>
    intro pkgs k
    have hn : (0 : Int) < m - 1 := by omega
    have hc0 : 0 ≤ (k : Int) % (m - 1) := Int.emod_nonneg _ (by omega)
    have hclt : (k : Int) % (m - 1) < m - 1 := Int.emod_lt_of_pos _ hn
    have hmodok : pyMod ((k : Int) % (m - 1)) (m - 1) =
        Except.ok ((k : Int) % (m - 1)) := by
      rw [pyMod, if_neg (by simp; omega)]
      rw [fmod_self_of_lt _ _ hc0 hclt]
    by_cases h1 : (pk.2 : Int) < pivot
    · obtain ⟨c', hc'⟩ := ih (pkgs ++ [(pk.1, m - 1)]) k
      refine ⟨c', ?_⟩
      simp only [pnLoop, pnSpecLoop, if_pos h1]
      exact hc'
    · by_cases h2 : (pk.2 : Int) = pivot
      · have hbeq : ((pk.2 : Int) == pivot) = true := beq_iff_eq.mpr h2
        obtain ⟨c', hc'⟩ := ih (pkgs ++ [(pk.1, (k : Int) % (m - 1))]) (k + 1)
        rw [← bumpCounter_eq m k hm] at hc'
        refine ⟨c', ?_⟩
        simp only [pnLoop, pnSpecLoop, if_neg h1, hbeq, if_true, hmodok]
        exact hc'
      · have hbeq : ((pk.2 : Int) == pivot) = false := beq_eq_false_iff_ne.mpr h2
        cases hf : pkgs.find? (fun kv => kv.1 == parentPkg pk.1) with
        | some kv =>
          obtain ⟨c', hc'⟩ := ih (pkgs ++ [(pk.1, kv.2)]) k
          refine ⟨c', ?_⟩
          simp only [pnLoop, pnSpecLoop, if_neg h1, hbeq, Bool.false_eq_true,
            if_false, hf]
          exact hc'
        | none =>
          cases hf2 : pkgs.find? (fun kv =>
              kv.1 == truncPkg pk.1 pivot.toNat) with
          | some kv =>
            obtain ⟨c', hc'⟩ := ih (pkgs ++ [(pk.1, kv.2)]) k
            refine ⟨c', ?_⟩
            simp only [pnLoop, pnSpecLoop, if_neg h1, hbeq, Bool.false_eq_true,
              if_false, hf, hf2]
            exact hc'
          | none =>
            obtain ⟨c', hc'⟩ := ih (pkgs ++ [(pk.1, (k : Int) % (m - 1)),
              (truncPkg pk.1 pivot.toNat, (k : Int) % (m - 1))]) (k + 1)
            rw [← bumpCounter_eq m k hm] at hc'
            refine ⟨c', ?_⟩
            simp only [pnLoop, pnSpecLoop, if_neg h1, hbeq, Bool.false_eq_true,
              if_false, hf, hf2, hmodok]
            exact hc'

theorem pnApply_eq_spec (pkgs : List (String × Int)) (m : Int) :
    ∀ (l : List String) (g : Graph),
    pnApply pkgs m l g = pnSpecApply pkgs m g l := by
  intro l
  induction l with
  | nil => intro g; rfl
  | cons n rest ih =>
    intro g
    cases hf : pkgs.find? (fun kv => kv.1 == pkgOf n) with
    | some kv =>
      show pnApply pkgs m rest _ = pnSpecApply pkgs m _ rest
      simp only [hf, Option.map_some, Option.getD_some]
      exact ih _
    | none =>
      show pnApply pkgs m rest _ = pnSpecApply pkgs m _ rest
      simp only [hf, Option.map_none, Option.getD_none]
      exact ih _

/-- C4 counterexample: on `exG4` with `max_part = 3` the pivot depth is
`2`; the code assigns the pivot packages round-robin ids in
first-encountered order (`q.r` gets `0`, `p.s` gets `1`), not ascending
package-name order (which would give `p.s` the id `0` and `q.r` the id
`1`); and `a.b.c`, whose only registered ancestor is the shallow package
`a` with the reserved id `2 = max_part - 1`, receives a fresh round-robin
id `0` instead of inheriting `2`. -/
theorem package_names_order_counterexample :
    (assignPackageNames exG4 (Option.some 3) 0).map (fun p =>
      (getPartition p.1 "a.C.m", getPartition p.1 "q.r.C.m",
       getPartition p.1 "p.s.C.m", getPartition p.1 "a.b.c.C.m")) =
      Except.ok (PyVal.int 2, PyVal.int 0, PyVal.int 1, PyVal.int 0) ∧
    PyVal.int 0 ≠ PyVal.int 1 ∧ PyVal.int 0 ≠ PyVal.int 2 :=
  ⟨by decide, by decide, by decide⟩

/-- C4 amended: in the hierarchical branch (`max_part ≥ 2`, at least
`max_part` distinct packages, a pivot depth found), the assignment equals
the specification-side description with the order correction: packages
shallower than the pivot receive `max_part - 1`; pivot-depth packages
receive `k % (max_part - 1)` for `k = 0, 1, ...` in first-encountered
order (the stable sort by depth preserves node-iteration order, not
name order); deeper packages inherit from their immediate parent if
registered, else from their pivot-truncated ancestor if registered, else
take the next round-robin id, which is also cached against the
pivot-truncated ancestor; and every node takes its package's id, with
`max_part - 1` for an unregistered package. -/
theorem package_names_amended (g : Graph) (m : Int) (r : Rng) (hm : 2 ≤ m)
    (hlen : ¬ ((pdGo (nodeIds g) []).length : Int) < m)
    (hpiv : pivotOf (pdGo (nodeIds g) []) m ≠ -1) :
    assignPackageNames g (Option.some m) r = Except.ok
      (pnSpecApply (pnSpecLoop m (pivotOf (pdGo (nodeIds g) []) m)
        (sortByDepth (pdGo (nodeIds g) [])) [] 0) m g (nodeIds g), r) := by
  obtain ⟨c', hloop⟩ := pnLoop_spec m (pivotOf (pdGo (nodeIds g) []) m) hm
    (sortByDepth (pdGo (nodeIds g) [])) [] 0
  rw [show (((0 : Nat) : Int)) % (m - 1) = (0 : Int) by simp] at hloop
  have hbeq : (pivotOf (pdGo (nodeIds g) []) m == -1) = false :=
    beq_eq_false_iff_ne.mpr hpiv
  have htry : pnTry g (Option.some m) r = Except.ok
      (pnApply (pnSpecLoop m (pivotOf (pdGo (nodeIds g) []) m)
        (sortByDepth (pdGo (nodeIds g) [])) [] 0) m (nodeIds g) g, r) := by
    rw [pnTry]
    simp only [pyLtI, decide_eq_false hlen, Bool.false_eq_true, if_false,
      hbeq, hloop]
    rfl
  rw [assignPackageNames, htry,
    pnApply_eq_spec (pnSpecLoop m (pivotOf (pdGo (nodeIds g) []) m)
      (sortByDepth (pdGo (nodeIds g) [])) [] 0) m (nodeIds g) g]

/-- C4 amended witness: on `exG4` with `max_part = 3` the hypotheses hold
(four distinct packages, pivot depth `2`) and the assignment matches the
corrected description: `a` is shallow and reserved (`2`), `q.r` and `p.s`
take `0` and `1` in first-encountered order, `a.b.c` takes the fresh
round-robin id `0`. -/
theorem package_names_amended_witness :
    (assignPackageNames exG4 (Option.some 3) 0).map (fun p =>
      (getPartition p.1 "a.C.m", getPartition p.1 "q.r.C.m",
       getPartition p.1 "p.s.C.m", getPartition p.1 "a.b.c.C.m")) =
      Except.ok (PyVal.int 2, PyVal.int 0, PyVal.int 1, PyVal.int 0) := by
  rw [package_names_amended exG4 3 0 (by decide) (by decide) (by decide)]
  decide

end CargoModel
